import Mathlib

/-!
Shallow embedding of the duplicate-image-finder core
(`src/lib/imageHash.ts`, `src/lib/fileSystem.ts`, `src/lib/duplicateFinder.ts`,
`src/lib/yandexDisk.ts`), together with theorems settling the frozen claims.

JS machine integers and floats are modelled by `Nat` / `Int` / `ℚ` with the
relevant operations made explicit; fallible code returns `Except`/`Option`;
the cancellation token is a `Bool` fixed for the whole call (the claims only
concern tokens that are already cancelled, or never cancelled, before entry);
callbacks (`onProgress`, `onFile`) are modelled by returning the ordered log
of the events that the source code would have delivered to them.

Layout: all definitions first, then all lemmas and theorems.
-/

namespace ImageHash

/-- `parseInt(c, 16)` for a single character, composed with JS `^`'s
`ToInt32` coercion (`NaN` becomes `0`): hex digits give their value,
every other character contributes `0`. -/
def parseHexDigit (c : Char) : Nat :=
  if '0' ≤ c ∧ c ≤ '9' then c.toNat - '0'.toNat
  else if 'a' ≤ c ∧ c ≤ 'f' then c.toNat - 'a'.toNat + 10
  else if 'A' ≤ c ∧ c ≤ 'F' then c.toNat - 'A'.toNat + 10
  else 0

/-- `((x >> 0) & 1) + ((x >> 1) & 1) + ((x >> 2) & 1) + ((x >> 3) & 1)`:
popcount of the low four bits, as written in `hammingDistance`. -/
def popcount4 (x : Nat) : Nat :=
  ((x >>> 0) &&& 1) + ((x >>> 1) &&& 1) + ((x >>> 2) &&& 1) + ((x >>> 3) &&& 1)

/-- The per-position contribution of one pair of hash characters. -/
def charDistance (a b : Char) : Nat :=
  popcount4 (parseHexDigit a ^^^ parseHexDigit b)

/-- `hammingDistance` from `src/lib/imageHash.ts`: throws when the digests
differ in length, otherwise sums per-character 4-bit popcounts of the xor of
the parsed hex digits. -/
def hammingDistance (h1 h2 : String) : Except String Nat :=
  if h1.length ≠ h2.length then
    .error ("Хэши имеют разную длину: " ++ toString h1.length ++ " vs "
      ++ toString h2.length)
  else
    .ok (((h1.data.zip h2.data).map fun p => charDistance p.1 p.2).sum)

end ImageHash

namespace DuplicateFinder

/-- `BATCH_SIZE` from `src/lib/duplicateFinder.ts`: files processed between
yields to the UI thread (a latency knob, not a correctness knob). -/
def BATCH_SIZE : Nat := 5

/-- `MIN_FILES_FOR_ETA` from `src/lib/duplicateFinder.ts`. -/
def MIN_FILES_FOR_ETA : Nat := 3

/-- JS `Math.round`: round half towards positive infinity. -/
def jsRound (q : ℚ) : ℤ := ⌊q + 1 / 2⌋

/-- State of a `ProgressTracker`; `startTime` is the `performance.now()`
value captured by the constructor (milliseconds, modelled exactly as a
rational). -/
structure ProgressTracker where
  startTime : ℚ
  trackSpeed : Bool
  bytesDownloaded : Nat

/-- `new ProgressTracker(trackSpeed)` at clock value `now`. -/
def ProgressTracker.init (now : ℚ) (trackSpeed : Bool) : ProgressTracker :=
  ⟨now, trackSpeed, 0⟩

/-- `ProgressTracker.addBytes`: counted only when `trackSpeed` is set. -/
def ProgressTracker.addBytes (t : ProgressTracker) (bytes : Nat) : ProgressTracker :=
  if t.trackSpeed then { t with bytesDownloaded := t.bytesDownloaded + bytes } else t

/-- The optional estimate fields of a progress event
(`Pick<ScanProgress, 'estimatedRemainingMs' | 'downloadSpeed'>`). -/
structure Estimates where
  estimatedRemainingMs : Option ℤ := none
  downloadSpeed : Option ℤ := none
deriving Repr, DecidableEq

/-- `ProgressTracker.getEstimates(processedFiles, totalFiles)`, with the
`performance.now()` reading passed explicitly as `now`. -/
def ProgressTracker.getEstimates (t : ProgressTracker) (now : ℚ)
    (processedFiles totalFiles : Nat) : Estimates :=
  if processedFiles < MIN_FILES_FOR_ETA then {}
  else
    let elapsedMs : ℚ := now - t.startTime
    let remaining : ℚ := (totalFiles : ℚ) - (processedFiles : ℚ)
    let msPerFile : ℚ := elapsedMs / (processedFiles : ℚ)
    { estimatedRemainingMs := some (jsRound (msPerFile * remaining))
      downloadSpeed :=
        if t.bytesDownloaded > 0 then
          some (jsRound ((t.bytesDownloaded : ℚ) / (elapsedMs / 1000)))
        else none }

end DuplicateFinder

namespace FileSystem

/-- `IMAGE_EXTENSIONS` from `src/lib/fileSystem.ts`. -/
def IMAGE_EXTENSIONS : List String :=
  [".jpg", ".jpeg", ".png", ".webp", ".gif", ".bmp", ".avif"]

/-- JS `String.prototype.lastIndexOf` for a one-character needle:
index of the last occurrence, `-1` when absent. -/
def jsLastIndexOf (l : List Char) (c : Char) : Int :=
  if c ∈ l then (l.length : Int) - 1 - (l.reverse.indexOf c : Int) else -1

/-- JS `String.prototype.slice(start)` to the end of the string; a negative
`start` counts from the end, clamped at `0`. -/
def jsSliceFrom (l : List Char) (i : Int) : List Char :=
  if i < 0 then l.drop (l.length - (-i).toNat) else l.drop i.toNat

/-- JS `String.prototype.startsWith`. -/
def jsStartsWith (s needle : String) : Bool :=
  needle.data.isPrefixOf s.data

/-- `isImageFile` from `src/lib/fileSystem.ts`:
`IMAGE_EXTENSIONS.has(name.slice(name.lastIndexOf('.')).toLowerCase())`.
JS `toLowerCase` is modelled by `Char.toLower` (they agree on ASCII, which
covers every character the extension comparison can accept). -/
def isImageFile (name : String) : Bool :=
  IMAGE_EXTENSIONS.contains
    (String.mk ((jsSliceFrom name.data (jsLastIndexOf name.data '.')).map Char.toLower))

/-- The spec's phrasing of image-name recognition — "the file's name suffix
case-insensitively matches one of the fixed extensions" — and also the
shallow embedding of the `yandexDisk.ts` regex
`/\.(jpg|jpeg|png|webp|gif|bmp|avif)$/i`, which tests exactly this. -/
def matchesImageExtension (name : String) : Bool :=
  IMAGE_EXTENSIONS.any fun e => e.data.isSuffixOf (name.data.map Char.toLower)

end FileSystem

namespace FileSystem

/-- A JS `File`: name, byte size, and an abstract identity for the payload. -/
structure JsFile where
  name : String
  size : Nat
  content : Nat
deriving DecidableEq, Repr

/-- `FileEntry` from `src/lib/fileSystem.ts`. `file` is present for local
entries; remote entries instead carry a lazy `getFile` callback (modelled as
a pure thunk returning `none` when the download would throw) plus the
metadata fields taken from the Yandex Disk listing response. -/
structure FileEntry where
  path : String
  file : Option JsFile := none
  getFile : Option (Unit → Option JsFile) := none
  directoryUrl : Option String := none
  size : Option Nat := none
  md5 : Option String := none
  sha256 : Option String := none
  name : Option String := none

/-- `getFileFromEntry` from `src/lib/fileSystem.ts`, with its cache write
`entry.file = file` made explicit: returns the outcome, the updated entry,
and whether the underlying `getFile` callback was invoked during this call.
`.error ()` stands for a thrown exception (failed download, or the
`entry.getFile!` of an entry that has neither field). -/
def getFileFromEntry (e : FileEntry) : Except Unit JsFile × FileEntry × Bool :=
  match e.file with
  | some f => (.ok f, e, false)
  | none =>
    match e.getFile with
    | none => (.error (), e, false)
    | some g =>
      match g () with
      | some f => (.ok f, { e with file := some f }, true)
      | none => (.error (), e, true)

/-- `n` successive calls of `getFileFromEntry` on the same entry: the list
of outcomes, the final entry state, and the total number of `getFile`
invocations performed. -/
def callGetFileN : Nat → FileEntry → (List (Except Unit JsFile) × FileEntry × Nat)
  | 0, e => ([], e, 0)
  | n + 1, e =>
    let r := getFileFromEntry e
    let rest := callGetFileN n r.2.1
    (r.1 :: rest.1, rest.2.1, (if r.2.2 then 1 else 0) + rest.2.2)

end FileSystem

namespace YandexDisk

/-- `isImageFile` from `src/lib/yandexDisk.ts`:
`r.mime_type?.startsWith('image/') || IMAGE_EXTS.test(r.name)` —
note the MIME fast path in front of the extension regex. -/
def isImageFile (name : String) (mime : Option String) : Bool :=
  (match mime with
    | some m => FileSystem.jsStartsWith m "image/"
    | none => false)
  || FileSystem.matchesImageExtension name

/-- A file resource as reported by the Yandex Disk listing API. -/
structure YandexResource where
  name : String
  path : String
  size : Nat
  mime : Option String := none
  md5 : Option String := none
  sha256 : Option String := none

/-- One event delivered by the remote listing capability.

Modelled from the spec: `listImageFiles`'s `onDirectoryEnter` /
`onDirectoryComplete` observer pair (the recursive remote enumeration with
directory observers is not part of the sources under `src/`; per the spec it
reports each file once and may report a directory more than once when the
caller requests overlapping folder paths). -/
inductive YandexEvent where
  | file (resource : YandexResource)
  | dirEnter (folderPath : String)
  | dirComplete (folderPath : String)

/-- `normalizeDiskPath` from `src/lib/fileSystem.ts`:
`p.replace(/^disk:/, '') || '/'`. -/
def normalizeDiskPath (p : String) : String :=
  let s := if FileSystem.jsStartsWith p "disk:" then String.mk (p.data.drop 5) else p
  if s = "" then "/" else s

/-- A `DirectoryTreeNode` of the discovery tree; the JS object references
from `children` and `rootNodes` are represented by node *paths* resolved
through the node map. -/
structure DirNode where
  name : String
  path : String
  childPaths : List String
  completed : Bool
  fileCount : Nat

/-- Lookup in the insertion-ordered association list modelling a JS `Map`. -/
def alGet (m : List (String × DirNode)) (k : String) : Option DirNode :=
  (m.find? fun p => p.1 = k).map fun p => p.2

/-- In-place field update of the node stored under `k` (JS objects in the
map are mutable and aliased by the tree). -/
def alUpdate (m : List (String × DirNode)) (k : String) (f : DirNode → DirNode) :
    List (String × DirNode) :=
  m.map fun p => if p.1 = k then (p.1, f p.2) else p

/-- A discovery progress event (`DiscoveryProgress` in
`src/lib/fileSystem.ts`); `hasTreeSnapshot` records whether the emission
carried a (deep-copied) `directoryTree`. -/
structure DiscoveryProgress where
  directoriesFound : Nat
  filesFound : Nat
  currentDirectory : String
  hasTreeSnapshot : Bool
deriving DecidableEq, Repr

/-- Mutable state of `discoverFromYandex` while the listing runs. -/
structure YandexDiscovery where
  dirs : Nat
  files : Nat
  nodeMap : List (String × DirNode)
  rootPaths : List String
  cachedEntries : List FileSystem.FileEntry
  progressLog : List DiscoveryProgress

/-- The initial `discoverFromYandex` state. -/
def initYandexDiscovery : YandexDiscovery :=
  ⟨0, 0, [], [], [], []⟩

/-- The directory part of a path: `path.slice(0, path.lastIndexOf('/'))`
when the path contains a slash, `''` otherwise. -/
def dirPathOf (path : String) : String :=
  if ('/' : Char) ∈ path.data then
    String.mk (path.data.take (FileSystem.jsLastIndexOf path.data '/').toNat)
  else ""

/-- `ensureParentChain` from `discoverFromYandex`: resolves the parent node
of `normalizedPath` in the node map (`null` for top-level paths). -/
def ensureParentChain (m : List (String × DirNode)) (normalizedPath : String) :
    Option DirNode :=
  let parentPath := dirPathOf normalizedPath
  if parentPath ≠ "" then alGet m parentPath else none

/-- `normalized.split('/').pop() || normalized`. -/
def nodeNameOf (normalized : String) : String :=
  let last := (normalized.splitOn "/").getLastD ""
  if last = "" then normalized else last

/-- One observer callback of `discoverFromYandex` (the three closures passed
to `listImageFiles`), processing a single listing event against the state.
`download` and `encodeUrl` stand for the `downloadFile` thunk constructor
and `getYandexDiskFolderUrl`. -/
def yandexStep (download : YandexResource → Option FileSystem.JsFile)
    (encodeUrl : String → String) (st : YandexDiscovery) :
    YandexEvent → YandexDiscovery
  | .file r =>
    let files := st.files + 1
    let path := let s := if FileSystem.jsStartsWith r.path "disk:" then String.mk (r.path.data.drop 5) else r.path
                if s = "" then "/" ++ r.name else s
    let dirPath := dirPathOf path
    let normalizedDir := if dirPath = "" then "/" else dirPath
    let nodeMap := match alGet st.nodeMap normalizedDir with
      | some _ => alUpdate st.nodeMap normalizedDir fun nd =>
          { nd with fileCount := nd.fileCount + 1 }
      | none => st.nodeMap
    let entry : FileSystem.FileEntry :=
      { path := path
        getFile := some fun _ => download r
        directoryUrl := if dirPath ≠ "" then some (encodeUrl dirPath) else none
        size := some r.size
        md5 := r.md5
        sha256 := r.sha256
        name := some r.name }
    { st with
        files := files
        nodeMap := nodeMap
        cachedEntries := st.cachedEntries ++ [entry]
        progressLog := st.progressLog
          ++ [⟨st.dirs, files, normalizedDir, false⟩] }
  | .dirEnter folderPath =>
    let dirs := st.dirs + 1
    let normalized := normalizeDiskPath folderPath
    match alGet st.nodeMap normalized with
    | some _ =>
      { st with
          dirs := dirs
          progressLog := st.progressLog ++ [⟨dirs, st.files, folderPath, false⟩] }
    | none =>
      let node : DirNode :=
        ⟨nodeNameOf normalized, normalized, [], false, 0⟩
      let nodeMap := st.nodeMap ++ [(normalized, node)]
      match ensureParentChain st.nodeMap normalized with
      | some parent =>
        { st with
            dirs := dirs
            nodeMap := alUpdate nodeMap parent.path fun nd =>
              { nd with childPaths := nd.childPaths ++ [normalized] }
            progressLog := st.progressLog ++ [⟨dirs, st.files, folderPath, true⟩] }
      | none =>
        { st with
            dirs := dirs
            nodeMap := nodeMap
            rootPaths := st.rootPaths ++ [normalized]
            progressLog := st.progressLog ++ [⟨dirs, st.files, folderPath, true⟩] }
  | .dirComplete folderPath =>
    let normalized := normalizeDiskPath folderPath
    let nodeMap := match alGet st.nodeMap normalized with
      | some _ => alUpdate st.nodeMap normalized fun nd => { nd with completed := true }
      | none => st.nodeMap
    { st with
        nodeMap := nodeMap
        progressLog := st.progressLog ++ [⟨st.dirs, st.files, folderPath, true⟩] }

/-- `discoverFromYandex`'s handler state after the whole listing delivered
the event sequence `events`. -/
def runYandexDiscovery (download : YandexResource → Option FileSystem.JsFile)
    (encodeUrl : String → String) (events : List YandexEvent) : YandexDiscovery :=
  events.foldl (yandexStep download encodeUrl) initYandexDiscovery

end YandexDisk

namespace FileSystem

instance : Inhabited JsFile := ⟨⟨"", 0, 0⟩⟩

instance : Inhabited FileEntry := ⟨{ path := "" }⟩

/-- The value produced by one (first) call of `getFileFromEntry` on `e`:
the owned payload, or the result of the lazy download; `none` when the call
would throw. -/
def fetchEntry (e : FileEntry) : Option JsFile :=
  match e.file with
  | some f => some f
  | none =>
    match e.getFile with
    | some g => g ()
    | none => none

/-- An entry of a `FileSystemDirectoryHandle`: a file (with the payload its
`getFile()` resolves to) or a subdirectory. -/
inductive FsEntry where
  | file (name : String) (f : JsFile)
  | dir (name : String) (entries : List FsEntry)

/-- An element of a `FileList` (from `<input webkitdirectory>`). -/
structure ListedFile where
  name : String
  webkitRelativePath : String
  jsFile : JsFile

/-- A scan/progress error outcome. `aborted` is the `AbortError`
`DOMException` (the distinguished Cancelled outcome); `fetchFailed` a failed
content fetch; `thrown` any other propagated exception (such as the
hash-length mismatch `Error`). -/
inductive ScanError where
  | aborted
  | fetchFailed
  | thrown (msg : String)
deriving DecidableEq, Repr

/-- `scanDirectoryHandle` from `src/lib/fileSystem.ts`, phase-2 form used by
`collectFileEntries`: walks the handle, checks the cancellation token before
every entry, and collects (= reports to `onFile`) every image file with its
content-bearing `getFile()` payload. The returned list is both the `results`
array and the ordered `onFile` log (they receive the same pushes; with a
token that is fixed for the whole call no partial log can be observed). -/
def scanDirectoryHandle (aborted : Bool) : List FsEntry → String → Except ScanError (List FileEntry)
  | [], _ => .ok []
  | e :: rest, basePath =>
    if aborted then .error .aborted
    else
      match e with
      | .file nm f =>
        let entryPath := if basePath = "" then nm else basePath ++ "/" ++ nm
        let here : List FileEntry :=
          if isImageFile nm then [{ path := entryPath, file := some f }] else []
        (scanDirectoryHandle aborted rest basePath).map fun r => here ++ r
      | .dir nm entries =>
        let entryPath := if basePath = "" then nm else basePath ++ "/" ++ nm
        match scanDirectoryHandle aborted entries entryPath with
        | .error err => .error err
        | .ok sub => (scanDirectoryHandle aborted rest basePath).map fun r => sub ++ r

/-- `collectFromFileList` from `src/lib/fileSystem.ts`: cancellation check
per element, image-name filter, `webkitRelativePath || name` as path. -/
def collectFromFileList (aborted : Bool) : List ListedFile → Except ScanError (List FileEntry)
  | [] => .ok []
  | f :: rest =>
    if aborted then .error .aborted
    else
      let here : List FileEntry :=
        if isImageFile f.name then
          [{ path := if f.webkitRelativePath = "" then f.name else f.webkitRelativePath
             file := some f.jsFile }]
        else []
      (collectFromFileList aborted rest).map fun r => here ++ r

/-- `DiscoveryResult` from `src/lib/fileSystem.ts`. -/
inductive DiscoveryResult where
  | handle (entries : List FsEntry) (totalDirectories totalFiles : Nat)
  | fileList (files : List ListedFile) (totalDirectories totalFiles : Nat)
  | yandex (totalDirectories totalFiles : Nat) (cachedEntries : List FileEntry)

/-- The `yandex` branch of `collectFileEntries`: iterate the cached entries,
checking the token before each `onFile` call; the log of `onFile` calls is
returned alongside the outcome. -/
def yandexCollectLoop (aborted : Bool) : List FileEntry → Except ScanError Unit × List FileEntry
  | [] => (.ok (), [])
  | e :: t =>
    if aborted then (.error .aborted, [])
    else
      let r := yandexCollectLoop aborted t
      (r.1, e :: r.2)

/-- `collectFileEntries` from `src/lib/fileSystem.ts`: phase 2 over a
`DiscoveryResult`. Returns the produced entries and the ordered `onFile`
log. -/
def collectFileEntries (discovery : DiscoveryResult) (aborted : Bool) :
    Except ScanError (List FileEntry) × List FileEntry :=
  match discovery with
  | .handle entries _ _ =>
    match scanDirectoryHandle aborted entries "" with
    | .ok results => (.ok results, results)
    | .error e => (.error e, [])
  | .fileList files _ _ =>
    match collectFromFileList aborted files with
    | .ok results => (.ok results, results)
    | .error e => (.error e, [])
  | .yandex _ _ cached =>
    match yandexCollectLoop aborted cached with
    | (.ok _, log) => (.ok cached, log)
    | (.error e, log) => (.error e, log)

/-- One step of the inner `for (const part of parts)` loop of
`discoverFromFileList`: create the tree node for the next path component
unless present, hook it to its parent (or to the root list). State:
(node map, root paths, current path). -/
def flPartStep (st : List (String × YandexDisk.DirNode) × List String × String)
    (part : String) : List (String × YandexDisk.DirNode) × List String × String :=
  let parentPath := st.2.2
  let currentPath := if parentPath = "" then part else parentPath ++ "/" ++ part
  if (YandexDisk.alGet st.1 currentPath).isSome then (st.1, st.2.1, currentPath)
  else
    let node : YandexDisk.DirNode := ⟨part, currentPath, [], true, 0⟩
    let m := st.1 ++ [(currentPath, node)]
    if parentPath ≠ "" then
      match YandexDisk.alGet m parentPath with
      | some _ =>
        (YandexDisk.alUpdate m parentPath
          (fun nd => { nd with childPaths := nd.childPaths ++ [currentPath] }),
         st.2.1, currentPath)
      | none => (m, st.2.1 ++ [currentPath], currentPath)
    else (m, st.2.1 ++ [currentPath], currentPath)

/-- Per-file body of `discoverFromFileList` (anything after the cancellation
check): skip non-images, bump the counter, create intermediate directory
nodes, bump the leaf directory file count. State:
(node map, root paths, file count). -/
def flFileStep (st : List (String × YandexDisk.DirNode) × List String × Nat)
    (f : ListedFile) : List (String × YandexDisk.DirNode) × List String × Nat :=
  if ¬ isImageFile f.name then st
  else
    let fileCount := st.2.2 + 1
    let relativePath := if f.webkitRelativePath = "" then f.name else f.webkitRelativePath
    let dirPath :=
      if ('/' : Char) ∈ relativePath.data then
        String.mk (relativePath.data.take (jsLastIndexOf relativePath.data '/').toNat)
      else ""
    if dirPath = "" then (st.1, st.2.1, fileCount)
    else
      let parts := dirPath.splitOn "/"
      let built := parts.foldl flPartStep (st.1, st.2.1, "")
      let m :=
        match YandexDisk.alGet built.1 dirPath with
        | some _ =>
          YandexDisk.alUpdate built.1 dirPath fun nd => { nd with fileCount := nd.fileCount + 1 }
        | none => built.1
      (m, built.2.1, fileCount)

/-- The cancellation-checking loop of `discoverFromFileList`. -/
def flLoop (aborted : Bool) :
    List ListedFile → List (String × YandexDisk.DirNode) × List String × Nat →
    Except ScanError (List (String × YandexDisk.DirNode) × List String × Nat)
  | [], st => .ok st
  | f :: t, st =>
    if aborted then .error .aborted
    else flLoop aborted t (flFileStep st f)

/-- `discoverFromFileList` from `src/lib/fileSystem.ts`: instant
reconstruction of the tree from path prefixes; emits a single final progress
event carrying the finished tree. -/
def discoverFromFileList (fileList : List ListedFile) (aborted : Bool) :
    Except ScanError DiscoveryResult × List YandexDisk.DiscoveryProgress :=
  match flLoop aborted fileList ([], [], 0) with
  | .error e => (.error e, [])
  | .ok (m, _roots, fileCount) =>
    (.ok (.fileList fileList m.length fileCount),
     [⟨m.length, fileCount, "", true⟩])

/-- The `for await (const entry of dirHandle.values())` loop of
`discoverFromHandle`'s recursive `walk`: cancellation check before each
entry, image-name counting for files, recursion into subdirectories — whose
directory-counter bump and enter progress snapshot are emitted *before*
their own entry loop, and whose completion snapshot after it. The
tree-snapshot payload of a progress event is abstracted to its presence
flag, as in the other discovery embeddings; counters, `currentDirectory`
(`basePath || handle.name`) and event order are exact. Returns the final
`(dirs, files)` counters and the ordered `onProgress` log; an `AbortError`
thrown mid-walk propagates past the enclosing directories' completion
events. -/
def handleEntries (aborted : Bool) (rootName : String) :
    List FsEntry → String → Nat → Nat →
    Except ScanError (Nat × Nat) × List YandexDisk.DiscoveryProgress
  | [], _, dirs, files => (.ok (dirs, files), [])
  | e :: rest, basePath, dirs, files =>
    if aborted then (.error .aborted, [])
    else
      match e with
      | .file nm _ =>
        if isImageFile nm then handleEntries aborted rootName rest basePath dirs (files + 1)
        else handleEntries aborted rootName rest basePath dirs files
      | .dir nm sub =>
        let entryPath := if basePath = "" then nm else basePath ++ "/" ++ nm
        let dirs1 := dirs + 1
        let ev : YandexDisk.DiscoveryProgress :=
          ⟨dirs1, files, if entryPath = "" then rootName else entryPath, true⟩
        match handleEntries aborted rootName sub entryPath dirs1 files with
        | (.error err, log) => (.error err, ev :: log)
        | (.ok st, log) =>
          let ev2 : YandexDisk.DiscoveryProgress :=
            ⟨st.1, st.2, if entryPath = "" then rootName else entryPath, true⟩
          let r := handleEntries aborted rootName rest basePath st.1 st.2
          (r.1, (ev :: (log ++ [ev2])) ++ r.2)

/-- `discoverFromHandle` from `src/lib/fileSystem.ts` (the `handle` branch
of `discoverFiles`): `walk(handle, '')`. The root `dirs += 1` and the root
directory-enter `onProgress` snapshot happen before the first cancellation
check — that check sits inside the per-entry loop — so the enter callback
is performed even under a pre-cancelled token, and an empty root directory
completes successfully. -/
def discoverFromHandle (rootName : String) (entries : List FsEntry) (aborted : Bool) :
    Except ScanError DiscoveryResult × List YandexDisk.DiscoveryProgress :=
  let ev : YandexDisk.DiscoveryProgress := ⟨1, 0, rootName, true⟩
  match handleEntries aborted rootName entries "" 1 0 with
  | (.error e, log) => (.error e, ev :: log)
  | (.ok st, log) =>
    (.ok (.handle entries st.1 st.2), (ev :: (log ++ [⟨st.1, st.2, rootName, true⟩])))

end FileSystem

namespace DuplicateFinder

/-- `HashedFile`: an entry with its computed digest and the resolved
payload. -/
structure HashedFile where
  entry : FileSystem.FileEntry
  hash : String
  file : FileSystem.JsFile

instance : Inhabited HashedFile := ⟨⟨default, "", default⟩⟩

/-- `DuplicateGroup`. -/
structure DuplicateGroup where
  hash : String
  files : List HashedFile

/-- The scan phases. -/
inductive Phase where
  | discovering
  | scanning
  | hashing
  | comparing
deriving DecidableEq, Repr

/-- A `ScanProgress` event as delivered to `onProgress`. -/
structure ScanProgress where
  totalFiles : Nat
  processedFiles : Nat
  currentFile : String
  phase : Phase
  estimatedRemainingMs : Option ℤ := none
  downloadSpeed : Option ℤ := none
deriving DecidableEq, Repr

/-- The external oracles of the duplicate finder: the `performance.now()`
clock (the `k`-th reading), `computeCryptoHash`, and
`computePerceptualHash` (`none` = decode failure). -/
structure Env where
  clock : Nat → ℚ
  cryptoHash : FileSystem.JsFile → String
  perceptualHash : FileSystem.JsFile → Option String

/-- JS truthiness of an optional string field (`undefined` and `''` are
falsy). -/
def truthyStr : Option String → Bool
  | some s => s ≠ ""
  | none => false

/-- The two usable metadata hash kinds. -/
inductive HashKey where
  | sha256
  | md5
deriving DecidableEq, Repr

/-- `getMetadataHashKey` from `src/lib/duplicateFinder.ts`. -/
def getMetadataHashKey (files : List FileSystem.FileEntry) : Option HashKey :=
  if files.length = 0 then none
  else if files.all fun f => truthyStr f.sha256 then some .sha256
  else if files.all fun f => truthyStr f.md5 then some .md5
  else none

/-- `entry[hashKey]!`. -/
def entryHash (k : HashKey) (e : FileSystem.FileEntry) : String :=
  match k with
  | .sha256 => e.sha256.getD ""
  | .md5 => e.md5.getD ""

/-- The `hashMap.get / push / set` pattern on a JS `Map<K, V[]>`:
append `v` to the bucket of `k`, creating the bucket (in insertion order)
when absent. -/
def mapPush {κ β : Type} [DecidableEq κ] :
    List (κ × List β) → κ → β → List (κ × List β)
  | [], k, v => [(k, [v])]
  | (k', vs) :: t, k, v =>
    if k' = k then (k', vs ++ [v]) :: t else (k', vs) :: mapPush t k v

/-- Phase 1 of `findExactDuplicatesByMetadata`: instant grouping by the
metadata hash, one cancellation check and one progress event per entry. -/
def metaPhase1 (aborted : Bool) (total : Nat) (key : HashKey) :
    List FileSystem.FileEntry → Nat → List (String × List FileSystem.FileEntry) →
    Except FileSystem.ScanError (List (String × List FileSystem.FileEntry)) × List ScanProgress
  | [], _, m => (.ok m, [])
  | e :: t, i, m =>
    if aborted then (.error .aborted, [])
    else
      let ev : ScanProgress := ⟨total, i + 1, e.path, .hashing, none, none⟩
      let r := metaPhase1 aborted total key t (i + 1) (mapPush m (entryHash key e) e)
      (r.1, ev :: r.2)

/-- The inner download loop of phase 3 of `findExactDuplicatesByMetadata`
(one duplicate group): cancellation check and progress event per entry, then
the content fetch (whose failure propagates). State between iterations:
(downloaded count, clock tick, tracker). -/
def metaPhase3Files (env : Env) (aborted : Bool) (totalDup : Nat) (h : String) :
    List FileSystem.FileEntry → Nat → Nat → ProgressTracker →
    Except FileSystem.ScanError (List HashedFile) × (Nat × Nat × ProgressTracker) × List ScanProgress
  | [], count, tick, tr => (.ok [], (count, tick, tr), [])
  | e :: t, count, tick, tr =>
    if aborted then (.error .aborted, (count, tick, tr), [])
    else
      let est := tr.getEstimates (env.clock tick) count totalDup
      let ev : ScanProgress :=
        ⟨totalDup, count, e.path, .comparing, est.estimatedRemainingMs, est.downloadSpeed⟩
      match FileSystem.fetchEntry e with
      | none => (.error .fetchFailed, (count, tick + 1, tr), [ev])
      | some f =>
        let r := metaPhase3Files env aborted totalDup h t (count + 1) (tick + 1) (tr.addBytes f.size)
        (r.1.map fun hs => ⟨e, h, f⟩ :: hs, r.2.1, ev :: r.2.2)

/-- The outer loop of phase 3 of `findExactDuplicatesByMetadata`. -/
def metaPhase3Groups (env : Env) (aborted : Bool) (totalDup : Nat) :
    List (String × List FileSystem.FileEntry) → Nat → Nat → ProgressTracker →
    Except FileSystem.ScanError (List DuplicateGroup) × List ScanProgress
  | [], _, _, _ => (.ok [], [])
  | (h, entries) :: rest, count, tick, tr =>
    match metaPhase3Files env aborted totalDup h entries count tick tr with
    | (.error err, _, log) => (.error err, log)
    | (.ok hashedFiles, st, log) =>
      let r := metaPhase3Groups env aborted totalDup rest st.1 st.2.1 st.2.2
      (r.1.map fun gs => ⟨h, hashedFiles⟩ :: gs, log ++ r.2)

/-- `findExactDuplicatesByMetadata` from `src/lib/duplicateFinder.ts`. -/
def findExactDuplicatesByMetadata (env : Env) (files : List FileSystem.FileEntry)
    (key : HashKey) (aborted : Bool) :
    Except FileSystem.ScanError (List DuplicateGroup) × List ScanProgress :=
  let p1 := metaPhase1 aborted files.length key files 0 []
  match p1.1 with
  | .error e => (.error e, p1.2)
  | .ok hashMap =>
    let duplicateEntries := hashMap.filter fun p => decide (1 < p.2.length)
    let totalDup := (duplicateEntries.map fun p => p.2.length).sum
    let tr := ProgressTracker.init (env.clock 0) true
    let p3 := metaPhase3Groups env aborted totalDup duplicateEntries 0 1 tr
    (p3.1, p1.2 ++ p3.2)

/-- The fallback loop of `findExactDuplicates`: fetch, SHA-256, group —
cancellation check and progress event (with estimates) per entry; fetch
failures propagate. -/
def exactFallbackLoop (env : Env) (aborted : Bool) (total : Nat) :
    List FileSystem.FileEntry → Nat → Nat → ProgressTracker →
    List (String × List HashedFile) →
    Except FileSystem.ScanError (List (String × List HashedFile)) × List ScanProgress
  | [], _, _, _, m => (.ok m, [])
  | e :: t, i, tick, tr, m =>
    if aborted then (.error .aborted, [])
    else
      let est := tr.getEstimates (env.clock tick) i total
      let ev : ScanProgress :=
        ⟨total, i, e.path, .hashing, est.estimatedRemainingMs, est.downloadSpeed⟩
      match FileSystem.fetchEntry e with
      | none => (.error .fetchFailed, [ev])
      | some f =>
        let h := env.cryptoHash f
        let r := exactFallbackLoop env aborted total t (i + 1) (tick + 1)
          (tr.addBytes f.size) (mapPush m h ⟨e, h, f⟩)
        (r.1, ev :: r.2)

/-- `findExactDuplicates` from `src/lib/duplicateFinder.ts`: metadata fast
path when a uniform metadata hash exists, otherwise fetch-and-hash fallback;
returns the groups (only those with ≥ 2 files) and the `onProgress` log. -/
def findExactDuplicates (env : Env) (files : List FileSystem.FileEntry) (aborted : Bool) :
    Except FileSystem.ScanError (List DuplicateGroup) × List ScanProgress :=
  match getMetadataHashKey files with
  | some key => findExactDuplicatesByMetadata env files key aborted
  | none =>
    let isRemote := match files with
      | [] => false
      | e :: _ => e.file.isNone
    let tr := ProgressTracker.init (env.clock 0) isRemote
    match exactFallbackLoop env aborted files.length files 0 1 tr [] with
    | (.error e, log) => (.error e, log)
    | (.ok hashMap, log) =>
      let finalEv : ScanProgress := ⟨files.length, files.length, "", .comparing, none, none⟩
      let groups := (hashMap.filter fun p => decide (1 < p.2.length)).map
        fun p => DuplicateGroup.mk p.1 p.2
      (.ok groups, log ++ [finalEv])

end DuplicateFinder

namespace DuplicateFinder

/-- The `while (parent[x] !== x)` loop of `find`, with path compression
(`parent[x] = parent[parent[x]]; x = parent[x]`). The fuel only discharges
termination; `parent.length` steps always suffice on a well-formed forest. -/
def findAux : Nat → List Nat → Nat → List Nat × Nat
  | 0, p, x => (p, x)
  | fuel + 1, p, x =>
    let px := p.getD x x
    if px = x then (p, x)
    else
      let gp := p.getD px px
      findAux fuel (p.set x gp) gp

/-- `find` from the union-find of `findSimilarDuplicates`. -/
def ufFind (p : List Nat) (x : Nat) : List Nat × Nat :=
  findAux p.length p x

/-- `union` from the union-find of `findSimilarDuplicates`:
`parent[find(a)] = find(b)` when the roots differ. -/
def ufUnion (p : List Nat) (a b : Nat) : List Nat :=
  let fa := ufFind p a
  let fb := ufFind fa.1 b
  if fa.2 ≠ fb.2 then fb.1.set fa.2 fb.2 else fb.1

/-- The ordered list of index pairs `(i, j)`, `i < j < n`, in the iteration
order of the `O(n²)` comparison loop. -/
def allPairs (n : Nat) : List (Nat × Nat) :=
  (List.range n).flatMap fun i => ((List.range n).drop (i + 1)).map fun j => (i, j)

/-- The pairwise comparison loop: cancellation check per pair, distance
evaluation (a thrown length mismatch propagates), union within threshold.
`dist` is the distance oracle (`hammingDistance` in the source). -/
def comparePairs (dist : String → String → Except String Nat) (threshold : Nat)
    (hget : Nat → String) (aborted : Bool) :
    List (Nat × Nat) → List Nat → Except FileSystem.ScanError (List Nat)
  | [], p => .ok p
  | (i, j) :: rest, p =>
    if aborted then .error .aborted
    else
      match dist (hget i) (hget j) with
      | .error msg => .error (.thrown msg)
      | .ok d =>
        comparePairs dist threshold hget aborted rest
          (if d ≤ threshold then ufUnion p i j else p)

/-- The group-collection loop: `for i: groupMap[find(i)].push(hashedFiles[i])`,
threading the (compressing) parent array; buckets hold the pushed indexes
`i`, materialized into `hashedFiles[i]` when the groups are built. -/
def collectLoop : List Nat → List Nat → List (Nat × List Nat) →
    List Nat × List (Nat × List Nat)
  | [], p, m => (p, m)
  | i :: rest, p, m =>
    let fr := ufFind p i
    collectLoop rest fr.1 (mapPush m fr.2 i)

/-- Phase B of `findSimilarDuplicates` (union-find clustering over the
successfully hashed files), generic in the distance oracle. -/
def similarClusters (dist : String → String → Except String Nat) (threshold : Nat)
    (aborted : Bool) (hs : List HashedFile) :
    Except FileSystem.ScanError (List DuplicateGroup) :=
  let n := hs.length
  let parent := List.range n
  match comparePairs dist threshold (fun i => (hs.getD i default).hash) aborted
      (allPairs n) parent with
  | .error e => .error e
  | .ok p =>
    let c := collectLoop (List.range n) p []
    .ok ((c.2.filter fun q => decide (1 < q.2.length)).map fun q =>
      let files := q.2.map fun i => hs.getD i default
      DuplicateGroup.mk (files.headD default).hash files)

/-- The `for (let i = 1; ...)` loop propagating the representative's
perceptual hash to the byte-identical copies of its md5 group; a failed
fetch aborts the loop (the exception is caught by the surrounding `try`),
keeping the already-pushed prefix. -/
def simDupesLoop (env : Env) (hsh : String) :
    List FileSystem.FileEntry → ProgressTracker → List HashedFile × ProgressTracker
  | [], tr => ([], tr)
  | e :: t, tr =>
    match FileSystem.fetchEntry e with
    | none => ([], tr)
    | some f =>
      let r := simDupesLoop env hsh t (tr.addBytes f.size)
      (⟨e, hsh, f⟩ :: r.1, r.2)

/-- The metadata branch of phase A of `findSimilarDuplicates`: one
representative per md5 group is fetched and perceptually hashed; decode or
fetch failures are swallowed (the group is skipped, already-pushed files
kept). State: (processed-unique count, clock tick, tracker). -/
def simMetaLoop (env : Env) (aborted : Bool) (uniqueCount : Nat) :
    List (String × List FileSystem.FileEntry) → Nat → Nat → ProgressTracker →
    Except FileSystem.ScanError (List HashedFile) × List ScanProgress
  | [], _, _, _ => (.ok [], [])
  | (_, entries) :: rest, pu, tick, tr =>
    if aborted then (.error .aborted, [])
    else
      let representative := entries.headD default
      let est := tr.getEstimates (env.clock tick) pu uniqueCount
      let ev : ScanProgress :=
        ⟨uniqueCount, pu, representative.path, .hashing,
         est.estimatedRemainingMs, est.downloadSpeed⟩
      let pushed : List HashedFile × ProgressTracker :=
        match FileSystem.fetchEntry representative with
        | none => ([], tr)
        | some file =>
          let tr1 := tr.addBytes file.size
          match env.perceptualHash file with
          | none => ([], tr1)
          | some hsh =>
            let d := simDupesLoop env hsh entries.tail tr1
            (⟨representative, hsh, file⟩ :: d.1, d.2)
      let r := simMetaLoop env aborted uniqueCount rest (pu + 1) (tick + 1) pushed.2
      (r.1.map fun hs => pushed.1 ++ hs, ev :: r.2)

/-- The fallback branch of phase A of `findSimilarDuplicates`: every entry
fetched and perceptually hashed, failures swallowed per entry. -/
def simFallbackLoop (env : Env) (aborted : Bool) (total : Nat) :
    List FileSystem.FileEntry → Nat → Nat → ProgressTracker →
    Except FileSystem.ScanError (List HashedFile) × List ScanProgress
  | [], _, _, _ => (.ok [], [])
  | e :: t, i, tick, tr =>
    if aborted then (.error .aborted, [])
    else
      let est := tr.getEstimates (env.clock tick) i total
      let ev : ScanProgress :=
        ⟨total, i, e.path, .hashing, est.estimatedRemainingMs, est.downloadSpeed⟩
      let pushed : List HashedFile × ProgressTracker :=
        match FileSystem.fetchEntry e with
        | none => ([], tr)
        | some f =>
          let tr1 := tr.addBytes f.size
          match env.perceptualHash f with
          | none => ([], tr1)
          | some hsh => ([(⟨e, hsh, f⟩ : HashedFile)], tr1)
      let r := simFallbackLoop env aborted total t (i + 1) (tick + 1) pushed.2
      (r.1.map fun hs => pushed.1 ++ hs, ev :: r.2)

/-- `findSimilarDuplicates` from `src/lib/duplicateFinder.ts`: phase A
computes perceptual hashes (deduplicating by md5 when uniformly available),
phase B emits the `comparing` event and clusters with union-find over
`hammingDistance`. -/
def findSimilarDuplicates (env : Env) (files : List FileSystem.FileEntry)
    (threshold : Nat) (aborted : Bool) :
    Except FileSystem.ScanError (List DuplicateGroup) × List ScanProgress :=
  let hasMetadata := decide (0 < files.length) && files.all fun f => truthyStr f.md5
  let phaseA :=
    if hasMetadata then
      let md5Groups := files.foldl (fun m e => mapPush m (e.md5.getD "") e) []
      let tr := ProgressTracker.init (env.clock 0) true
      simMetaLoop env aborted md5Groups.length md5Groups 0 1 tr
    else
      let isRemote := match files with
        | [] => false
        | e :: _ => e.file.isNone
      let tr := ProgressTracker.init (env.clock 0) isRemote
      simFallbackLoop env aborted files.length files 0 1 tr
  match phaseA with
  | (.error e, log) => (.error e, log)
  | (.ok hs, log) =>
    let ev2 : ScanProgress := ⟨files.length, files.length, "", .comparing, none, none⟩
    match similarClusters ImageHash.hammingDistance threshold aborted hs with
    | .error e => (.error e, log ++ [ev2])
    | .ok gs => (.ok gs, log ++ [ev2])


/-- Node `x` follows parent pointers to the root `r` in exactly `k` steps
(out-of-range reads default to the index itself, mirroring that the loop
`while (parent[x] !== x)` never moves an absent entry; an entry equal to its
index is a root). -/
inductive ReachesIn (p : List Nat) : Nat → Nat → Nat → Prop where
  | root (x : Nat) : p.getD x x = x → ReachesIn p x 0 x
  | step (x k r : Nat) : p.getD x x ≠ x → ReachesIn p (p.getD x x) k r →
      ReachesIn p x (k + 1) r

/-- Node `x` reaches the root `r` in some number of steps. -/
def Reaches (p : List Nat) (x r : Nat) : Prop := ∃ k, ReachesIn p x k r

/-- Every in-range parent pointer stays in range. -/
def Bounded (p : List Nat) : Prop := ∀ i, i < p.length → p.getD i i < p.length

/-- A well-formed union-find array: bounded pointers and every in-range node
reaches a root. -/
def UFok (p : List Nat) : Prop :=
  Bounded p ∧ ∀ x, x < p.length → ∃ r, Reaches p x r

/-- Two nodes share a representative. -/
def sameClass (p : List Nat) (x y : Nat) : Prop :=
  ∃ r, Reaches p x r ∧ Reaches p y r

/-- Iterated parent pointer. -/
def parIter (p : List Nat) : Nat → Nat → Nat
  | 0, x => x
  | i + 1, x => parIter p i (p.getD x x)

/-- An edge recorded by the comparison loop: the pair occurs in the iterated
pair list and its distance evaluates within the threshold. -/
def pairEdge (dist : String → String → Except String Nat) (threshold : Nat)
    (hget : Nat → String) (pairs : List (Nat × Nat)) (x y : Nat) : Prop :=
  (x, y) ∈ pairs ∧ ∃ d, dist (hget x) (hget y) = Except.ok d ∧ d ≤ threshold

/-- The similarity edge between positions of the hashed-file list: `x < y`
both in range, and the distance between their perceptual hashes is within
the threshold. -/
def simEdge (dist : String → String → Except String Nat) (threshold : Nat)
    (hs : List HashedFile) (x y : Nat) : Prop :=
  x < y ∧ y < hs.length ∧
    ∃ d, dist (hs.getD x default).hash (hs.getD y default).hash = Except.ok d ∧
      d ≤ threshold

end DuplicateFinder

/-! ## Lemmas and theorems -/

namespace ImageHash

theorem charDistance_comm (a b : Char) : charDistance a b = charDistance b a := by
  simp [charDistance, Nat.xor_comm]

theorem charDistance_self (a : Char) : charDistance a a = 0 := by
  simp [charDistance, Nat.xor_self, popcount4]

theorem hammingDistance_self_list (l : List Char) :
    ((l.zip l).map fun p => charDistance p.1 p.2).sum = 0 := by
  induction l with
  | nil => rfl
  | cons a t ih => simpa [List.zip_cons_cons, charDistance_self] using ih

theorem hammingDistance_comm_list (l1 l2 : List Char) :
    ((l1.zip l2).map fun p => charDistance p.1 p.2).sum
      = ((l2.zip l1).map fun p => charDistance p.1 p.2).sum := by
  induction l1 generalizing l2 with
  | nil => cases l2 <;> rfl
  | cons a t ih =>
    cases l2 with
    | nil => rfl
    | cons b u => simp [List.zip_cons_cons, charDistance_comm a b, ih u]

end ImageHash

/-- **C6.** `hammingDistance` is symmetric for equal-length inputs, returns
zero for identical inputs, and fails (returns an error) whenever the two
digests differ in length; in particular `hammingDistance "abc" "ab"` fails. -/
theorem hammingDistance_symm_zero_mismatch :
    (∀ a b : String, a.length = b.length →
        ImageHash.hammingDistance a b = ImageHash.hammingDistance b a)
    ∧ (∀ a : String, ImageHash.hammingDistance a a = .ok 0)
    ∧ ((ImageHash.hammingDistance "abc" "ab").isOk = false) := by
  refine ⟨?_, ?_, by decide⟩
  · intro a b hlen
    simp only [ImageHash.hammingDistance, hlen, ne_eq, not_true_eq_false,
      if_false, ite_not]
    rw [ImageHash.hammingDistance_comm_list]
  · intro a
    simp [ImageHash.hammingDistance, ImageHash.hammingDistance_self_list]

/-- Witness for C6: instantiates the symmetry conjunct at concrete
equal-length inputs and evaluates all three parts. -/
theorem hammingDistance_symm_zero_mismatch_witness :
    (ImageHash.hammingDistance "ab" "0f" = ImageHash.hammingDistance "0f" "ab")
    ∧ (ImageHash.hammingDistance "ab" "ab" = .ok 0)
    ∧ ((ImageHash.hammingDistance "abc" "ab").isOk = false) :=
  ⟨hammingDistance_symm_zero_mismatch.1 "ab" "0f" (by decide),
   hammingDistance_symm_zero_mismatch.2.1 "ab",
   hammingDistance_symm_zero_mismatch.2.2⟩

/-- **C7 (amended).** `getEstimates` returns no estimate while the processed
count is below `MIN_FILES_FOR_ETA = 3`; once `processed ≥ 3` with
`processed < total` and positive elapsed time, the ETA is present, finite and
*nonnegative*, computed as `round((elapsed / processed) · remaining)` —
but it is not always strictly positive (see the counterexample). -/
theorem getEstimates_eta_spec (start now : ℚ) (sp : Bool) (bytes processed total : Nat) :
    (processed < 3 →
      (DuplicateFinder.ProgressTracker.getEstimates ⟨start, sp, bytes⟩ now processed total)
        = {})
    ∧ (3 ≤ processed → processed < total → 0 < now - start →
      (DuplicateFinder.ProgressTracker.getEstimates ⟨start, sp, bytes⟩ now processed total).estimatedRemainingMs
          = some (DuplicateFinder.jsRound
              ((now - start) / (processed : ℚ) * ((total : ℚ) - (processed : ℚ))))
        ∧ 0 ≤ (DuplicateFinder.jsRound
              ((now - start) / (processed : ℚ) * ((total : ℚ) - (processed : ℚ))))) := by
  constructor
  · intro hlt
    simp [DuplicateFinder.ProgressTracker.getEstimates, DuplicateFinder.MIN_FILES_FOR_ETA, hlt]
  · intro hge hlt helapsed
    have hnotlt : ¬ processed < DuplicateFinder.MIN_FILES_FOR_ETA := by
      simp only [DuplicateFinder.MIN_FILES_FOR_ETA]; omega
    refine ⟨by simp [DuplicateFinder.ProgressTracker.getEstimates, hnotlt], ?_⟩
    have hq : 0 < (now - start) / (processed : ℚ) * ((total : ℚ) - (processed : ℚ)) := by
      apply mul_pos
      · apply div_pos helapsed
        exact_mod_cast Nat.lt_of_lt_of_le (by norm_num) hge
      · have : (processed : ℚ) < (total : ℚ) := by exact_mod_cast hlt
        linarith
    have : (0 : ℚ) ≤ (now - start) / (processed : ℚ) * ((total : ℚ) - (processed : ℚ)) + 1 / 2 := by
      linarith
    exact Int.le_floor.mpr (by exact_mod_cast this)

/-- Witness for C7: at `start = 0`, `now = 40`, `processed = 4`, `total = 9`
the estimate is withheld nowhere: `processed = 2` withholds, `processed = 4`
yields `round(40/4 · 5) = 50 ≥ 0`. -/
theorem getEstimates_eta_spec_witness :
    (DuplicateFinder.ProgressTracker.getEstimates ⟨0, false, 0⟩ 40 2 9) = {}
    ∧ ((DuplicateFinder.ProgressTracker.getEstimates ⟨0, false, 0⟩ 40 4 9).estimatedRemainingMs
        = some (DuplicateFinder.jsRound ((40 - 0) / (4 : ℚ) * ((9 : ℚ) - (4 : ℚ))))
      ∧ 0 ≤ DuplicateFinder.jsRound ((40 - 0) / (4 : ℚ) * ((9 : ℚ) - (4 : ℚ)))) :=
  ⟨(getEstimates_eta_spec 0 40 false 0 2 9).1 (by norm_num),
   (getEstimates_eta_spec 0 40 false 0 4 9).2 (by norm_num) (by norm_num) (by norm_num)⟩

/-- Counterexample for C7 as stated: with a steady rate of a third of a
millisecond per file (`elapsed = 1` ms, `processed = 3`, `total = 4`,
so `processed` is above the floor and below `total`), the returned ETA is
`round(1/3 · 1) = 0` — present but *not* positive. -/
theorem getEstimates_eta_not_positive :
    (DuplicateFinder.ProgressTracker.getEstimates ⟨0, false, 0⟩ 1 3 4).estimatedRemainingMs
      = some 0 := by
  have : DuplicateFinder.jsRound ((1 : ℚ) / 3 * 1) = 0 := by
    unfold DuplicateFinder.jsRound
    norm_num [Int.floor_eq_zero_iff]
  simp only [DuplicateFinder.ProgressTracker.getEstimates, DuplicateFinder.MIN_FILES_FOR_ETA]
  norm_num
  convert this using 2
  norm_num

theorem bool_eq_of_iff {a b : Bool} (h : a = true ↔ b = true) : a = b := by
  cases a <;> cases b <;> simp_all

theorem list_any_congr {α : Type} (l : List α) (p q : α → Bool)
    (h : ∀ a ∈ l, p a = q a) : l.any p = l.any q := by
  induction l with
  | nil => rfl
  | cons x t ih =>
    simp only [List.any_cons]
    rw [h x (List.mem_cons_self x t), ih (fun a ha => h a (List.mem_cons_of_mem x ha))]

theorem toLower_eq_dot_iff (c : Char) : Char.toLower c = '.' ↔ c = '.' := by
  constructor
  · intro h
    simp only [Char.toLower] at h
    split at h
    · exfalso
      rename_i hg
      obtain ⟨hg1, hg2⟩ := hg
      have hv : (c.toNat + 32).isValidChar := by left; omega
      have h1 : (Char.ofNat (c.toNat + 32)).toNat = 46 := by rw [h]; rfl
      unfold Char.ofNat at h1
      rw [dif_pos hv] at h1
      simp [Char.ofNatAux, Char.toNat, UInt32.toNat, BitVec.toNat_ofNatLt] at h1
      have h2 : c.toNat = 14 := h1
      omega
    · exact h
  · intro h; subst h; rfl

namespace FileSystem

theorem indexOf_append_cons_self (c : Char) (xs ys : List Char) (h : c ∉ xs) :
    (xs ++ c :: ys).indexOf c = xs.length := by
  induction xs with
  | nil => simp
  | cons x t ih =>
    have hx : x ≠ c := fun hh => h (hh ▸ List.mem_cons_self x t)
    have ht : c ∉ t := fun hh => h (List.mem_cons_of_mem x hh)
    simp [List.indexOf_cons_ne _ hx, ih ht]

theorem suffix_align (A : List Char) {B eb : List Char} (hB : ('.' : Char) ∉ B) (hne : ('.' : Char) ∉ eb) :
    (('.' :: eb) <:+ (A ++ '.' :: B)) ↔ eb = B := by
  constructor
  · intro hs
    have hBsuf : ('.' :: B) <:+ (A ++ '.' :: B) := List.suffix_append A _
    rcases le_or_lt ('.' :: eb).length (('.' :: B).length) with hle | hgt
    · have h1 : ('.' :: eb) <:+ ('.' :: B) :=
        List.suffix_of_suffix_length_le hs hBsuf hle
      obtain ⟨pre, hpre⟩ := h1
      cases pre with
      | nil => simpa using hpre
      | cons p ps =>
        exfalso
        rw [List.cons_append] at hpre
        have h2 : B = ps ++ '.' :: eb := ((List.cons.injEq _ _ _ _).mp hpre).2.symm
        exact hB (h2 ▸ List.mem_append_right ps (List.mem_cons_self _ _))
    · exfalso
      have h1 : ('.' :: B) <:+ ('.' :: eb) :=
        List.suffix_of_suffix_length_le hBsuf hs (le_of_lt hgt)
      obtain ⟨pre, hpre⟩ := h1
      cases pre with
      | nil =>
        have : B = eb := by simpa using hpre
        simp [this] at hgt
      | cons p ps =>
        rw [List.cons_append] at hpre
        have h2 : eb = ps ++ '.' :: B := ((List.cons.injEq _ _ _ _).mp hpre).2.symm
        exact hne (h2 ▸ List.mem_append_right ps (List.mem_cons_self _ _))
  · rintro rfl
    exact List.suffix_append A _

theorem exts_shape :
    ∀ s ∈ IMAGE_EXTENSIONS, s.data.head? = some '.' ∧ ('.' : Char) ∉ s.data.tail := by
  decide

theorem exts_long : ∀ s ∈ IMAGE_EXTENSIONS, 4 ≤ s.data.length := by
  decide

theorem lastIndexOf_last_dot (l1 l2 : List Char) (h : ('.' : Char) ∉ l2) :
    jsLastIndexOf (l1 ++ '.' :: l2) '.' = (l1.length : Int) := by
  have hmem : ('.' : Char) ∈ l1 ++ '.' :: l2 :=
    List.mem_append_right l1 (List.mem_cons_self _ _)
  have hrev : (l1 ++ '.' :: l2).reverse = l2.reverse ++ '.' :: l1.reverse := by
    simp
  have hnotm : ('.' : Char) ∉ l2.reverse := by simpa using h
  rw [jsLastIndexOf, if_pos hmem, hrev, indexOf_append_cons_self _ _ _ hnotm]
  simp
  ring

theorem sliceFrom_at_length (l1 l2 : List Char) :
    jsSliceFrom (l1 ++ l2) (l1.length : Int) = l2 := by
  rw [jsSliceFrom, if_neg (not_lt.mpr (Int.natCast_nonneg _))]
  simp [List.drop_left]

theorem isImageFile_eq_matches (name : String) :
    isImageFile name = matchesImageExtension name := by
  by_cases hdot : ('.' : Char) ∈ name.data
  · -- decompose at the last dot
    set r := name.data.reverse with hr
    have hdr : ('.' : Char) ∈ r := by simpa [hr] using hdot
    have hdw : r.dropWhile (fun c => c ≠ '.') ≠ [] := by
      intro hnil
      rw [List.dropWhile_eq_nil_iff] at hnil
      exact absurd (hnil '.' hdr) (by simp)
    have hhead : (r.dropWhile (fun c => c ≠ '.')).head hdw = '.' := by
      have := List.head_dropWhile_not (fun c : Char => c ≠ '.') r hdw
      simpa using this
    obtain ⟨t, ht⟩ : ∃ t, r.dropWhile (fun c => c ≠ '.') = '.' :: t := by
      have hct := (List.head_cons_tail _ hdw).symm
      rw [hhead] at hct
      exact ⟨_, hct⟩
    have hsplit : name.data = t.reverse ++ '.' :: (r.takeWhile (fun c => c ≠ '.')).reverse := by
      have h1 : r.takeWhile (fun c => c ≠ '.') ++ r.dropWhile (fun c => c ≠ '.') = r :=
        List.takeWhile_append_dropWhile (fun c => c ≠ '.') r
      have h2 : name.data = r.reverse := by simp [hr]
      rw [h2]
      conv_lhs => rw [← h1, ht]
      rw [List.reverse_append, List.reverse_cons, List.append_assoc, List.singleton_append]
    set l1 := t.reverse with hl1
    set l2 := (r.takeWhile (fun c => c ≠ '.')).reverse with hl2
    have hno2 : ('.' : Char) ∉ l2 := by
      intro hmem
      rw [hl2, List.mem_reverse] at hmem
      have := List.mem_takeWhile_imp hmem
      simp at this
    have hlow2 : ('.' : Char) ∉ l2.map Char.toLower := by
      intro hmem
      obtain ⟨c, hc, hcl⟩ := List.mem_map.mp hmem
      exact hno2 ((toLower_eq_dot_iff c).mp hcl ▸ hc)
    have hL : isImageFile name =
        IMAGE_EXTENSIONS.contains (String.mk ('.' :: l2.map Char.toLower)) := by
      rw [isImageFile, hsplit, lastIndexOf_last_dot _ _ hno2, sliceFrom_at_length]
      rfl
    have hlowsplit : name.data.map Char.toLower
        = l1.map Char.toLower ++ '.' :: l2.map Char.toLower := by
      rw [hsplit]
      simp
    have hR : matchesImageExtension name =
        IMAGE_EXTENSIONS.any fun e => e.data = '.' :: l2.map Char.toLower := by
      rw [matchesImageExtension]
      apply list_any_congr
      intro e he
      obtain ⟨hh, htl⟩ := exts_shape e he
      obtain ⟨eb, heb⟩ : ∃ eb, e.data = '.' :: eb := by
        cases hed : e.data with
        | nil => rw [hed] at hh; simp at hh
        | cons a as =>
          rw [hed] at hh
          simp at hh
          exact ⟨as, by rw [hh]⟩
      have hneb : ('.' : Char) ∉ eb := by
        rw [heb] at htl
        simpa using htl
      apply bool_eq_of_iff
      rw [hlowsplit, heb]
      have halign := suffix_align (l1.map Char.toLower) hlow2 hneb
      constructor
      · intro hsuf
        have hs2 := List.isSuffixOf_iff_suffix.mp hsuf
        simp [halign.mp hs2]
      · intro heq
        have heq2 : eb = l2.map Char.toLower := by simpa using heq
        apply List.isSuffixOf_iff_suffix.mpr
        rw [heq2]
        exact List.suffix_append _ _
    rw [hL, hR, List.contains_eq_any_beq]
    apply list_any_congr
    intro e he
    apply bool_eq_of_iff
    constructor
    · intro hb
      have h3 : String.mk ('.' :: l2.map Char.toLower) = e := eq_of_beq hb
      subst h3
      exact decide_eq_true rfl
    · intro hb
      have h3 : e.data = '.' :: l2.map Char.toLower := of_decide_eq_true hb
      obtain ⟨d⟩ := e
      have h4 : d = '.' :: l2.map Char.toLower := h3
      subst h4
      exact beq_self_eq_true _
  · -- no dot anywhere: both sides are false
    have hL : isImageFile name = false := by
      rw [isImageFile, jsLastIndexOf, if_neg hdot]
      rw [Bool.eq_false_iff]
      intro hcon
      obtain ⟨e, he, hbeq⟩ := List.contains_iff_exists_mem_beq.mp hcon
      have heq : e = String.mk ((jsSliceFrom name.data (-1)).map Char.toLower) := by
        cases e
        have := eq_of_beq hbeq
        simp_all
      have hlen : 4 ≤ e.data.length := exts_long e he
      have hlen2 : ((jsSliceFrom name.data (-1)).map Char.toLower).length ≤ 1 := by
        simp only [List.length_map, jsSliceFrom]
        rw [if_pos (by norm_num)]
        rw [List.length_drop]
        omega
      rw [heq] at hlen
      simp only [String.mk] at hlen
      omega
    have hR : matchesImageExtension name = false := by
      rw [Bool.eq_false_iff]
      intro hcon
      obtain ⟨e, he, hsuf⟩ := List.any_eq_true.mp hcon
      obtain ⟨hh, _⟩ := exts_shape e he
      have hdotmem : ('.' : Char) ∈ e.data := by
        cases hed : e.data with
        | nil => rw [hed] at hh; simp at hh
        | cons a as =>
          rw [hed] at hh; simp at hh
          simp [hed, hh]
      have hsub : ('.' : Char) ∈ name.data.map Char.toLower :=
        (List.isSuffixOf_iff_suffix.mp hsuf).subset hdotmem
      obtain ⟨c, hc, hcl⟩ := List.mem_map.mp hsub
      exact hdot ((toLower_eq_dot_iff c).mp hcl ▸ hc)
    rw [hL, hR]


end FileSystem

/-- **C8 (amended).** For the local sources (handle walker and flat file
list, which share `fileSystem.ts`'s `isImageFile`), a file is counted as an
image *iff* its name suffix case-insensitively matches one of the seven fixed
extensions. The remote listing (`yandexDisk.ts`'s `isImageFile`), however,
counts a file as an image iff its MIME type starts with `image/` *or* its
name matches the extension pattern — it does sniff the reported MIME type. -/
theorem image_name_recognition :
    (∀ name, FileSystem.isImageFile name = FileSystem.matchesImageExtension name)
    ∧ (∀ name mime, YandexDisk.isImageFile name mime = true ↔
        ((∃ m, mime = some m ∧ FileSystem.jsStartsWith m "image/" = true)
          ∨ FileSystem.matchesImageExtension name = true)) := by
  refine ⟨FileSystem.isImageFile_eq_matches, ?_⟩
  intro name mime
  cases mime with
  | none => simp [YandexDisk.isImageFile]
  | some m => simp [YandexDisk.isImageFile, Bool.or_eq_true]

/-- Counterexample for C8 as stated: the remote listing counts
`scan.tiff` with MIME type `image/tiff` as an image even though its name
suffix matches none of the fixed extensions (and the local matcher
correspondingly rejects the same name). -/
theorem image_name_recognition_counterexample :
    YandexDisk.isImageFile "scan.tiff" (some "image/tiff") = true
    ∧ FileSystem.matchesImageExtension "scan.tiff" = false
    ∧ FileSystem.isImageFile "scan.tiff" = false := by
  refine ⟨by decide, by decide, by decide⟩

namespace FileSystem

theorem callGetFileN_cached (f : JsFile) :
    ∀ (n : Nat) (e : FileEntry), e.file = some f →
      callGetFileN n e = (List.replicate n (.ok f), e, 0) := by
  intro n
  induction n with
  | zero => intro e he; simp [callGetFileN]
  | succ m ih =>
    intro e he
    simp [callGetFileN, getFileFromEntry, he, ih e he, List.replicate]

end FileSystem

/-- **C9 (amended).** `getFileFromEntry` is fetch-once *for entries whose
fetch can succeed*: if the entry already owns its payload, no call ever
invokes `getFile`; if the entry is lazy and its `getFile` succeeds, then any
number of successive calls invoke `getFile` exactly once (on the first call)
and every call returns the same cached `File` value. (When `getFile`
*throws*, nothing is cached and a later call invokes it again — see the
counterexample.) -/
theorem getFileFromEntry_fetch_once (e : FileSystem.FileEntry) (n : Nat) :
    (∀ f, e.file = some f →
      FileSystem.callGetFileN n e = (List.replicate n (.ok f), e, 0))
    ∧ (∀ g f, e.file = none → e.getFile = some g → g () = some f → 1 ≤ n →
      FileSystem.callGetFileN n e
        = (List.replicate n (.ok f), { e with file := some f }, 1)) := by
  constructor
  · intro f he
    exact FileSystem.callGetFileN_cached f n e he
  · intro g f hfile hget hg hn
    obtain ⟨m, rfl⟩ : ∃ m, n = m + 1 := ⟨n - 1, by omega⟩
    simp only [FileSystem.callGetFileN, FileSystem.getFileFromEntry, hfile, hget, hg]
    rw [FileSystem.callGetFileN_cached f m _ rfl]
    simp [List.replicate]

/-- Witness for C9: a local entry (payload owned) is never fetched; a lazy
entry with a succeeding download is fetched exactly once over three calls. -/
theorem getFileFromEntry_fetch_once_witness :
    (FileSystem.callGetFileN 3 { path := "a.jpg", file := some ⟨"a.jpg", 4, 7⟩ }
        = (List.replicate 3 (.ok ⟨"a.jpg", 4, 7⟩),
            { path := "a.jpg", file := some ⟨"a.jpg", 4, 7⟩ }, 0))
    ∧ (FileSystem.callGetFileN 3 { path := "r.jpg", getFile := some fun _ => some ⟨"r.jpg", 9, 5⟩ }
        = (List.replicate 3 (.ok ⟨"r.jpg", 9, 5⟩),
            { path := "r.jpg", file := some ⟨"r.jpg", 9, 5⟩,
              getFile := some fun _ => some ⟨"r.jpg", 9, 5⟩ }, 1)) :=
  ⟨(getFileFromEntry_fetch_once _ 3).1 ⟨"a.jpg", 4, 7⟩ rfl,
   (getFileFromEntry_fetch_once _ 3).2 _ ⟨"r.jpg", 9, 5⟩ rfl rfl rfl (by omega)⟩

/-- Counterexample for C9 as stated: when the lazy download *throws*, the
failure is not cached, so two successive calls invoke the underlying
`getFile` callback twice — more than "at most once over the entry's
lifetime". -/
theorem getFileFromEntry_invoked_twice_on_failure :
    (FileSystem.callGetFileN 2 { path := "bad.jpg", getFile := some fun _ => none }).2.2
      = 2 := rfl

namespace YandexDisk

theorem alUpdate_keys (m : List (String × DirNode)) (k : String) (f : DirNode → DirNode) :
    (alUpdate m k f).map Prod.fst = m.map Prod.fst := by
  induction m with
  | nil => rfl
  | cons p t ih =>
    simp only [alUpdate, List.map_cons] at ih ⊢
    split <;> simp_all

theorem alGet_eq_none_iff (m : List (String × DirNode)) (k : String) :
    alGet m k = none ↔ k ∉ m.map Prod.fst := by
  induction m with
  | nil => simp [alGet]
  | cons p t ih =>
    unfold alGet at ih ⊢
    rw [List.find?_cons]
    cases hdec : decide (p.1 = k) with
    | true =>
      have := of_decide_eq_true hdec
      simp [this]
    | false =>
      have hne := of_decide_eq_false hdec
      simp only [List.map_cons, List.mem_cons]
      rw [ih]
      have hne2 : ¬ (k = p.1) := fun hh => hne hh.symm
      simp [hne2]

theorem yandexStep_keys_nodup (download : YandexResource → Option FileSystem.JsFile)
    (encodeUrl : String → String) (st : YandexDiscovery) (ev : YandexEvent)
    (h : (st.nodeMap.map Prod.fst).Nodup) :
    ((yandexStep download encodeUrl st ev).nodeMap.map Prod.fst).Nodup := by
  cases ev with
  | file r =>
    simp only [yandexStep]
    split <;> simp [alUpdate_keys, h]
  | dirEnter folderPath =>
    simp only [yandexStep]
    split
    · simpa using h
    · rename_i halg
      have hnm : normalizeDiskPath folderPath ∉ st.nodeMap.map Prod.fst :=
        (alGet_eq_none_iff _ _).mp halg
      split <;> simp [alUpdate_keys, List.nodup_append, h, hnm]
  | dirComplete folderPath =>
    simp only [yandexStep]
    split <;> simp [alUpdate_keys, h]

theorem yandexStep_dirs (download : YandexResource → Option FileSystem.JsFile)
    (encodeUrl : String → String) (st : YandexDiscovery) (ev : YandexEvent) :
    (yandexStep download encodeUrl st ev).dirs
      = st.dirs + (match ev with | .dirEnter _ => 1 | _ => 0) := by
  cases ev with
  | file r => simp only [yandexStep]; omega
  | dirEnter folderPath =>
    simp only [yandexStep]
    split
    · rfl
    · split <;> rfl
  | dirComplete folderPath =>
    simp only [yandexStep]; omega

theorem yandexStep_keys_mono (download : YandexResource → Option FileSystem.JsFile)
    (encodeUrl : String → String) (st : YandexDiscovery) (ev : YandexEvent) :
    st.nodeMap.map Prod.fst ⊆ (yandexStep download encodeUrl st ev).nodeMap.map Prod.fst := by
  cases ev with
  | file r =>
    simp only [yandexStep]
    split <;> simp [alUpdate_keys, List.Subset.refl]
  | dirEnter folderPath =>
    simp only [yandexStep]
    split
    · simp [List.Subset.refl]
    · split <;> simp [alUpdate_keys, List.subset_append_left]
  | dirComplete folderPath =>
    simp only [yandexStep]
    split <;> simp [alUpdate_keys, List.Subset.refl]

theorem yandexStep_enter_mem (download : YandexResource → Option FileSystem.JsFile)
    (encodeUrl : String → String) (st : YandexDiscovery) (folderPath : String) :
    normalizeDiskPath folderPath
      ∈ (yandexStep download encodeUrl st (.dirEnter folderPath)).nodeMap.map Prod.fst := by
  simp only [yandexStep]
  split
  · rename_i halg
    have : ¬ (normalizeDiskPath folderPath ∉ st.nodeMap.map Prod.fst) := by
      rw [← alGet_eq_none_iff]
      simp [halg]
    simpa using not_not.mp this
  · split <;> simp [alUpdate_keys]

end YandexDisk

namespace YandexDisk

theorem runYandex_nodup_dirs (download : YandexResource → Option FileSystem.JsFile)
    (encodeUrl : String → String) :
    ∀ (events : List YandexEvent) (st : YandexDiscovery),
      (st.nodeMap.map Prod.fst).Nodup →
      ((events.foldl (yandexStep download encodeUrl) st).nodeMap.map Prod.fst).Nodup
      ∧ (events.foldl (yandexStep download encodeUrl) st).dirs
          = st.dirs + events.countP
              (fun ev => match ev with | .dirEnter _ => true | _ => false) := by
  intro events
  induction events with
  | nil => intro st h; simpa using h
  | cons ev t ih =>
    intro st h
    have h1 := yandexStep_keys_nodup download encodeUrl st ev h
    obtain ⟨ha, hb⟩ := ih _ h1
    refine ⟨ha, ?_⟩
    rw [List.foldl_cons, hb, yandexStep_dirs]
    cases ev <;> (simp [List.countP_cons]; try omega)

theorem runYandex_keys_mono (download : YandexResource → Option FileSystem.JsFile)
    (encodeUrl : String → String) :
    ∀ (events : List YandexEvent) (st : YandexDiscovery),
      st.nodeMap.map Prod.fst
        ⊆ (events.foldl (yandexStep download encodeUrl) st).nodeMap.map Prod.fst := by
  intro events
  induction events with
  | nil => intro st; exact fun x hx => hx
  | cons ev t ih =>
    intro st
    exact fun x hx =>
      ih (yandexStep download encodeUrl st ev) (yandexStep_keys_mono download encodeUrl st ev hx)

theorem runYandex_enter_mem (download : YandexResource → Option FileSystem.JsFile)
    (encodeUrl : String → String) (p : String) :
    ∀ (events : List YandexEvent) (st : YandexDiscovery),
      YandexEvent.dirEnter p ∈ events →
      normalizeDiskPath p
        ∈ (events.foldl (yandexStep download encodeUrl) st).nodeMap.map Prod.fst := by
  intro events
  induction events with
  | nil => intro st h; simp at h
  | cons ev t ih =>
    intro st h
    rw [List.foldl_cons]
    rcases List.mem_cons.mp h with heq | hmem
    · subst heq
      exact runYandex_keys_mono download encodeUrl t _
        (yandexStep_enter_mem download encodeUrl st p)
    · exact ih _ hmem

end YandexDisk

/-- **C4 (amended).** During remote discovery, when the same folder path
(after normalization) is reported more than once, exactly one
`DirectoryTreeNode` exists for it in the final tree (the node map is
duplicate-free and holds the normalized path exactly once) — but the
*directory counter* is incremented on every report, duplicates included:
`dirs` equals the number of `onDirectoryEnter` callbacks, not the number of
distinct directories (see the counterexample for the doubled count). -/
theorem yandex_discovery_dedup (download : YandexDisk.YandexResource → Option FileSystem.JsFile)
    (encodeUrl : String → String) (events : List YandexDisk.YandexEvent) (p : String) :
    ((YandexDisk.runYandexDiscovery download encodeUrl events).nodeMap.map Prod.fst).Nodup
    ∧ (YandexDisk.runYandexDiscovery download encodeUrl events).dirs
        = events.countP
            (fun ev => match ev with | .dirEnter _ => true | _ => false)
    ∧ (YandexDisk.YandexEvent.dirEnter p ∈ events →
        ((YandexDisk.runYandexDiscovery download encodeUrl events).nodeMap.map Prod.fst).count
            (YandexDisk.normalizeDiskPath p) = 1) := by
  obtain ⟨h1, h2⟩ :=
    YandexDisk.runYandex_nodup_dirs download encodeUrl events
      YandexDisk.initYandexDiscovery (by simp [YandexDisk.initYandexDiscovery])
  refine ⟨h1, by simpa [YandexDisk.initYandexDiscovery] using h2, ?_⟩
  intro hmem
  exact List.count_eq_one_of_mem h1
    (YandexDisk.runYandex_enter_mem download encodeUrl p events
      YandexDisk.initYandexDiscovery hmem)

/-- Witness for C4: two reports of `disk:/Photos` (with completes) leave
exactly one `/Photos` node in the tree. -/
theorem yandex_discovery_dedup_witness :
    YandexDisk.YandexEvent.dirEnter "disk:/Photos"
        ∈ [YandexDisk.YandexEvent.dirEnter "disk:/Photos",
           YandexDisk.YandexEvent.dirEnter "disk:/Photos",
           YandexDisk.YandexEvent.dirComplete "disk:/Photos"]
    ∧ ((YandexDisk.runYandexDiscovery (fun _ => none) id
          [YandexDisk.YandexEvent.dirEnter "disk:/Photos",
           YandexDisk.YandexEvent.dirEnter "disk:/Photos",
           YandexDisk.YandexEvent.dirComplete "disk:/Photos"]).nodeMap.map Prod.fst).count
        (YandexDisk.normalizeDiskPath "disk:/Photos") = 1 :=
  ⟨List.mem_cons_self _ _,
   (yandex_discovery_dedup (fun _ => none) id _ "disk:/Photos").2.2 (List.mem_cons_self _ _)⟩

/-- Counterexample for C4 as stated: visiting `/Photos` twice yields one
tree node but a directory count of `2` — the counter `dirs += 1` runs
*before* the duplicate check, so the total directory count is incremented
twice, not "exactly once". -/
theorem yandex_discovery_double_count :
    ((YandexDisk.runYandexDiscovery (fun _ => none) id
        [YandexDisk.YandexEvent.dirEnter "disk:/Photos",
         YandexDisk.YandexEvent.dirEnter "disk:/Photos"]).nodeMap.map Prod.fst
      = ["/Photos"])
    ∧ (YandexDisk.runYandexDiscovery (fun _ => none) id
        [YandexDisk.YandexEvent.dirEnter "disk:/Photos",
         YandexDisk.YandexEvent.dirEnter "disk:/Photos"]).dirs = 2 :=
  ⟨by decide, by decide⟩

namespace DuplicateFinder

theorem mapPush_ne_nil {κ β : Type} [DecidableEq κ] (m : List (κ × List β)) (k : κ) (v : β) :
    mapPush m k v ≠ [] := by
  cases m with
  | nil => simp [mapPush]
  | cons p t =>
    unfold mapPush
    split <;> simp

theorem foldl_mapPush_ne_nil {κ β : Type} [DecidableEq κ] (key : β → κ) :
    ∀ (l : List β) (m : List (κ × List β)), (m ≠ [] ∨ l ≠ []) →
      l.foldl (fun acc e => mapPush acc (key e) e) m ≠ [] := by
  intro l
  induction l with
  | nil =>
    intro m h
    rcases h with h | h
    · simpa using h
    · simp at h
  | cons e t ih =>
    intro m _
    rw [List.foldl_cons]
    exact ih _ (Or.inl (mapPush_ne_nil m (key e) e))

end DuplicateFinder

/-- **C10.** On the empty entry list with a non-cancelled token,
`findExactDuplicates` and `findSimilarDuplicates` both return the empty
group list without error and emit exactly one progress callback, whose phase
is `comparing` with `totalFiles = 0` and `processedFiles = 0`. -/
theorem empty_input_single_comparing_event (env : DuplicateFinder.Env) (threshold : Nat) :
    DuplicateFinder.findExactDuplicates env [] false
        = (.ok [], [⟨0, 0, "", .comparing, none, none⟩])
    ∧ DuplicateFinder.findSimilarDuplicates env [] threshold false
        = (.ok [], [⟨0, 0, "", .comparing, none, none⟩]) :=
  ⟨rfl, rfl⟩

/-- **C3 (amended).** With a token already cancelled before the call, each
of `findExactDuplicates`, `findSimilarDuplicates`, `collectFileEntries`
(all three source kinds) and `discoverFromFileList` fails with the
distinguished `AbortError` outcome and performs no progress/`onFile`
callback — *provided its input is non-empty*. (On an empty input the
per-item cancellation checks never run; the operations then complete
successfully, the groupers even emitting their final `comparing` callback —
see the counterexample.) Directory-handle discovery (`discoverFromHandle`,
the `handle` branch of `discoverFiles`) violates fail-fast outright: its
recursive walk bumps the directory counter and emits the root
directory-enter `onProgress` snapshot *before* the first cancellation
check, so pre-cancelled it still performs exactly one observable progress
callback — then fails with `AbortError` when the root directory has at
least one entry, and completes successfully (with a second, completion
callback) when the root is empty. The remote (Yandex) discovery variant
passes the token to the listing driver, which is absent from `src` and
spec-modelled as an event sequence, so its cancellation point is not
statable from the source. -/
theorem precancelled_fails_fast (env : DuplicateFinder.Env) (threshold : Nat)
    (files : List FileSystem.FileEntry) (entries : List FileSystem.FsEntry)
    (lfs : List FileSystem.ListedFile) (cached : List FileSystem.FileEntry)
    (rootName : String) (n1 n2 n3 n4 n5 n6 : Nat) :
    (files ≠ [] → DuplicateFinder.findExactDuplicates env files true = (.error .aborted, []))
    ∧ (files ≠ [] →
        DuplicateFinder.findSimilarDuplicates env files threshold true = (.error .aborted, []))
    ∧ (entries ≠ [] →
        FileSystem.collectFileEntries (.handle entries n1 n2) true = (.error .aborted, []))
    ∧ (lfs ≠ [] →
        FileSystem.collectFileEntries (.fileList lfs n3 n4) true = (.error .aborted, []))
    ∧ (cached ≠ [] →
        FileSystem.collectFileEntries (.yandex n5 n6 cached) true = (.error .aborted, []))
    ∧ (lfs ≠ [] → FileSystem.discoverFromFileList lfs true = (.error .aborted, []))
    ∧ (entries ≠ [] →
        FileSystem.discoverFromHandle rootName entries true
          = (.error .aborted, [⟨1, 0, rootName, true⟩]))
    ∧ (FileSystem.discoverFromHandle rootName [] true
        = (.ok (.handle [] 1 0), [⟨1, 0, rootName, true⟩, ⟨1, 0, rootName, true⟩])) := by
  refine ⟨?_, ?_, ?_, ?_, ?_, ?_, ?_, ?_⟩
  · intro h
    obtain ⟨e, t, rfl⟩ : ∃ e t, files = e :: t := by
      cases files with
      | nil => exact absurd rfl h
      | cons e t => exact ⟨e, t, rfl⟩
    unfold DuplicateFinder.findExactDuplicates
    cases hkey : DuplicateFinder.getMetadataHashKey (e :: t) with
    | some key =>
      simp [DuplicateFinder.findExactDuplicatesByMetadata, DuplicateFinder.metaPhase1]
    | none =>
      simp [DuplicateFinder.exactFallbackLoop]
  · intro h
    obtain ⟨e, t, rfl⟩ : ∃ e t, files = e :: t := by
      cases files with
      | nil => exact absurd rfl h
      | cons e t => exact ⟨e, t, rfl⟩
    unfold DuplicateFinder.findSimilarDuplicates
    dsimp only
    by_cases hmeta : (decide (0 < (e :: t).length)
        && (e :: t).all fun f => DuplicateFinder.truthyStr f.md5) = true
    · rw [if_pos hmeta]
      obtain ⟨g, gs, hg⟩ : ∃ g gs,
          (e :: t).foldl (fun m f => DuplicateFinder.mapPush m (f.md5.getD "") f) [] = g :: gs := by
        have := DuplicateFinder.foldl_mapPush_ne_nil
          (fun f : FileSystem.FileEntry => f.md5.getD "") (e :: t) [] (Or.inr (by simp))
        cases hcase : (e :: t).foldl
            (fun m f => DuplicateFinder.mapPush m (f.md5.getD "") f) [] with
        | nil => exact absurd hcase this
        | cons g gs => exact ⟨g, gs, rfl⟩
      rw [hg]
      simp [DuplicateFinder.simMetaLoop]
    · rw [if_neg hmeta]
      simp [DuplicateFinder.simFallbackLoop]
  · intro h
    obtain ⟨e, t, rfl⟩ : ∃ e t, entries = e :: t := by
      cases entries with
      | nil => exact absurd rfl h
      | cons e t => exact ⟨e, t, rfl⟩
    cases e <;> simp [FileSystem.collectFileEntries, FileSystem.scanDirectoryHandle]
  · intro h
    obtain ⟨e, t, rfl⟩ : ∃ e t, lfs = e :: t := by
      cases lfs with
      | nil => exact absurd rfl h
      | cons e t => exact ⟨e, t, rfl⟩
    simp [FileSystem.collectFileEntries, FileSystem.collectFromFileList]
  · intro h
    obtain ⟨e, t, rfl⟩ : ∃ e t, cached = e :: t := by
      cases cached with
      | nil => exact absurd rfl h
      | cons e t => exact ⟨e, t, rfl⟩
    simp [FileSystem.collectFileEntries, FileSystem.yandexCollectLoop]
  · intro h
    obtain ⟨e, t, rfl⟩ : ∃ e t, lfs = e :: t := by
      cases lfs with
      | nil => exact absurd rfl h
      | cons e t => exact ⟨e, t, rfl⟩
    simp [FileSystem.discoverFromFileList, FileSystem.flLoop]
  · intro h
    obtain ⟨e, t, rfl⟩ : ∃ e t, entries = e :: t := by
      cases entries with
      | nil => exact absurd rfl h
      | cons e t => exact ⟨e, t, rfl⟩
    have hstep : FileSystem.handleEntries true rootName (e :: t) "" 1 0
        = (.error .aborted, []) := by
      rw [FileSystem.handleEntries.eq_def]
      simp
    simp [FileSystem.discoverFromHandle, hstep]
  · have hnil : FileSystem.handleEntries true rootName ([] : List FileSystem.FsEntry) "" 1 0
        = (.ok (1, 0), []) := by
      rw [FileSystem.handleEntries.eq_def]
    simp [FileSystem.discoverFromHandle, hnil]

/-- Witness for C3: the amended theorem applied at one-element inputs with a
concrete environment. -/
theorem precancelled_fails_fast_witness :
    DuplicateFinder.findExactDuplicates ⟨fun _ => 0, fun _ => "", fun _ => none⟩
        [{ path := "a.jpg" }] true = (.error .aborted, [])
    ∧ DuplicateFinder.findSimilarDuplicates ⟨fun _ => 0, fun _ => "", fun _ => none⟩
        [{ path := "a.jpg" }] 10 true = (.error .aborted, [])
    ∧ FileSystem.collectFileEntries (.handle [.file "a.jpg" ⟨"a.jpg", 1, 1⟩] 1 1) true
        = (.error .aborted, [])
    ∧ FileSystem.collectFileEntries (.fileList [⟨"a.jpg", "d/a.jpg", ⟨"a.jpg", 1, 1⟩⟩] 1 1) true
        = (.error .aborted, [])
    ∧ FileSystem.collectFileEntries (.yandex 1 1 [{ path := "a.jpg" }]) true
        = (.error .aborted, [])
    ∧ FileSystem.discoverFromFileList [⟨"a.jpg", "d/a.jpg", ⟨"a.jpg", 1, 1⟩⟩] true
        = (.error .aborted, [])
    ∧ FileSystem.discoverFromHandle "root" [.file "a.jpg" ⟨"a.jpg", 1, 1⟩] true
        = (.error .aborted, [⟨1, 0, "root", true⟩])
    ∧ FileSystem.discoverFromHandle "root" [] true
        = (.ok (.handle [] 1 0), [⟨1, 0, "root", true⟩, ⟨1, 0, "root", true⟩]) := by
  have h := precancelled_fails_fast ⟨fun _ => 0, fun _ => "", fun _ => none⟩ 10
    [{ path := "a.jpg" }] [.file "a.jpg" ⟨"a.jpg", 1, 1⟩]
    [⟨"a.jpg", "d/a.jpg", ⟨"a.jpg", 1, 1⟩⟩] [{ path := "a.jpg" }] "root" 1 1 1 1 1 1
  exact ⟨h.1 (List.cons_ne_nil _ _), h.2.1 (List.cons_ne_nil _ _),
    h.2.2.1 (List.cons_ne_nil _ _), h.2.2.2.1 (List.cons_ne_nil _ _),
    h.2.2.2.2.1 (List.cons_ne_nil _ _), h.2.2.2.2.2.1 (List.cons_ne_nil _ _),
    h.2.2.2.2.2.2.1 (List.cons_ne_nil _ _), h.2.2.2.2.2.2.2⟩

/-- Counterexample for C3 as stated: (1) "including for the empty entry
list" fails — with the token already cancelled, `findExactDuplicates` on the
empty list does *not* fail; it completes with the empty group list and still
performs one progress callback (`comparing`, 0/0), because every
cancellation check sits inside a per-item loop; (2) "performs no further
observable progress callbacks" fails for directory-handle discovery — with
the token already cancelled, `discoverFromHandle` on a one-file root emits
the root directory-enter `onProgress` snapshot before failing, and on an
empty root it even completes successfully after two snapshots. -/
theorem precancelled_empty_input_still_succeeds :
    DuplicateFinder.findExactDuplicates ⟨fun _ => 0, fun _ => "", fun _ => none⟩ [] true
        = (.ok [], [⟨0, 0, "", .comparing, none, none⟩])
    ∧ FileSystem.discoverFromHandle "photos" [.file "b.png" ⟨"b.png", 1, 1⟩] true
        = (.error .aborted, [⟨1, 0, "photos", true⟩])
    ∧ FileSystem.discoverFromHandle "photos" [] true
        = (.ok (.handle [] 1 0), [⟨1, 0, "photos", true⟩, ⟨1, 0, "photos", true⟩]) := by
  refine ⟨rfl, ?_, ?_⟩
  · have hstep : FileSystem.handleEntries true "photos"
        [.file "b.png" ⟨"b.png", 1, 1⟩] "" 1 0 = (.error .aborted, []) := by
      rw [FileSystem.handleEntries.eq_def]
      simp
    simp [FileSystem.discoverFromHandle, hstep]
  · have hnil : FileSystem.handleEntries true "photos" ([] : List FileSystem.FsEntry) "" 1 0
        = (.ok (1, 0), []) := by
      rw [FileSystem.handleEntries.eq_def]
    simp [FileSystem.discoverFromHandle, hnil]

namespace DuplicateFinder

theorem metaPhase1_ok (total : Nat) (key : HashKey) :
    ∀ (l : List FileSystem.FileEntry) (i : Nat) (m : List (String × List FileSystem.FileEntry)),
      (metaPhase1 false total key l i m).1
        = .ok (l.foldl (fun acc e => mapPush acc (entryHash key e) e) m) := by
  intro l
  induction l with
  | nil => intro i m; rfl
  | cons e t ih =>
    intro i m
    simp only [metaPhase1, Bool.false_eq_true, if_false, List.foldl_cons]
    exact ih (i + 1) (mapPush m (entryHash key e) e)

theorem foldl_mapPush_const_key (key : HashKey) (h : String) :
    ∀ (l : List FileSystem.FileEntry) (vs : List FileSystem.FileEntry),
      (∀ e ∈ l, entryHash key e = h) →
      l.foldl (fun acc e => mapPush acc (entryHash key e) e) [(h, vs)] = [(h, vs ++ l)] := by
  intro l
  induction l with
  | nil => intro vs _; simp
  | cons e t ih =>
    intro vs hall
    rw [List.foldl_cons]
    have he : entryHash key e = h := hall e (List.mem_cons_self _ _)
    have hstep : mapPush [(h, vs)] (entryHash key e) e = [(h, vs ++ [e])] := by
      simp [mapPush, he]
    rw [hstep, ih (vs ++ [e]) fun x hx => hall x (List.mem_cons_of_mem _ hx)]
    simp

theorem metaPhase3Files_ok (env : Env) (totalDup : Nat) (h : String) :
    ∀ (l : List FileSystem.FileEntry) (count tick : Nat) (tr : ProgressTracker),
      (∀ e ∈ l, (FileSystem.fetchEntry e).isSome) →
      (metaPhase3Files env false totalDup h l count tick tr).1
        = .ok (l.map fun e => ⟨e, h, (FileSystem.fetchEntry e).getD default⟩) := by
  intro l
  induction l with
  | nil => intro count tick tr _; rfl
  | cons e t ih =>
    intro count tick tr hall
    have hsome := hall e (List.mem_cons_self _ _)
    obtain ⟨f, hf⟩ := Option.isSome_iff_exists.mp hsome
    simp only [metaPhase3Files, Bool.false_eq_true, if_false, hf]
    rw [ih (count + 1) (tick + 1) _ fun x hx => hall x (List.mem_cons_of_mem _ hx)]
    simp [hf, Except.map]

end DuplicateFinder

/-- **C2 (amended).** For every set of *at least two* entries all carrying
the same (non-empty) strong-hash (`sha256`) metadata value, and whose
content fetches succeed, `findExactDuplicates` returns exactly one group
containing all of them, in order. The group membership is decided purely
from the metadata (the same result for every environment — in particular
for every `computeCryptoHash` oracle — since no byte payload is hashed for
the grouping decision; fetches happen only to materialize the already-formed
group for preview). A *single* entry with the same metadata yields no group
(see the counterexample), which is why "at least two" is required. -/
theorem findExactDuplicates_metadata_single_group
    (files : List FileSystem.FileEntry) (h : String)
    (hlen : 2 ≤ files.length) (hne : h ≠ "")
    (hall : ∀ e ∈ files, e.sha256 = some h)
    (hfetch : ∀ e ∈ files, (FileSystem.fetchEntry e).isSome) :
    ∃ hf : List DuplicateFinder.HashedFile,
      hf.map (fun x => x.entry) = files
      ∧ ∀ env : DuplicateFinder.Env,
        (DuplicateFinder.findExactDuplicates env files false).1 = .ok [⟨h, hf⟩] := by
  refine ⟨files.map fun e => ⟨e, h, (FileSystem.fetchEntry e).getD default⟩, ?_, ?_⟩
  · rw [List.map_map,
      show ((fun x : DuplicateFinder.HashedFile => x.entry)
        ∘ fun e => (⟨e, h, (FileSystem.fetchEntry e).getD default⟩ : DuplicateFinder.HashedFile))
        = id from funext fun e => rfl, List.map_id]
  intro env
  have hkey : DuplicateFinder.getMetadataHashKey files = some .sha256 := by
    unfold DuplicateFinder.getMetadataHashKey
    rw [if_neg (by omega), if_pos]
    rw [List.all_eq_true]
    intro e he
    rw [hall e he]
    simp [DuplicateFinder.truthyStr, hne]
  have hhash : ∀ e ∈ files, DuplicateFinder.entryHash .sha256 e = h := by
    intro e he
    simp [DuplicateFinder.entryHash, hall e he]
  obtain ⟨e0, t0, rfl⟩ : ∃ e0 t0, files = e0 :: t0 := by
    cases files with
    | nil => simp at hlen
    | cons e0 t0 => exact ⟨e0, t0, rfl⟩
  unfold DuplicateFinder.findExactDuplicates
  rw [hkey]
  unfold DuplicateFinder.findExactDuplicatesByMetadata
  dsimp only
  have hp1 := DuplicateFinder.metaPhase1_ok (e0 :: t0).length .sha256 (e0 :: t0) 0 []
  have hfold : (e0 :: t0).foldl
      (fun acc e => DuplicateFinder.mapPush acc (DuplicateFinder.entryHash .sha256 e) e) []
      = [(h, e0 :: t0)] := by
    rw [List.foldl_cons]
    have hstep : DuplicateFinder.mapPush [] (DuplicateFinder.entryHash .sha256 e0) e0
        = [(DuplicateFinder.entryHash .sha256 e0, [e0])] := rfl
    rw [hstep, hhash e0 (List.mem_cons_self _ _)]
    have := DuplicateFinder.foldl_mapPush_const_key .sha256 h t0 [e0]
      fun x hx => hhash x (List.mem_cons_of_mem _ hx)
    rw [this]
    simp
  rw [hfold] at hp1
  -- dispatch the match on phase 1's outcome
  cases hout : DuplicateFinder.metaPhase1 false (e0 :: t0).length .sha256 (e0 :: t0) 0 [] with
  | mk p1res p1log =>
    rw [hout] at hp1
    simp only at hp1
    subst hp1
    dsimp only
    have hlt : 0 < t0.length := by
      simp only [List.length_cons] at hlen
      omega
    have hfilter : List.filter (fun p => decide (1 < p.2.length)) [(h, e0 :: t0)]
        = [(h, e0 :: t0)] := by
      simp [List.filter, hlt]
    rw [hfilter]
    rw [show (List.map (fun p => p.2.length) [((h, e0 :: t0) : String × List FileSystem.FileEntry)]).sum
        = (e0 :: t0).length from by simp]
    have h3 := DuplicateFinder.metaPhase3Files_ok env ((e0 :: t0).length) h (e0 :: t0)
      0 1 (DuplicateFinder.ProgressTracker.init (env.clock 0) true) hfetch
    simp only [DuplicateFinder.metaPhase3Groups]
    cases h3out : DuplicateFinder.metaPhase3Files env false ((e0 :: t0).length) h (e0 :: t0)
        0 1 (DuplicateFinder.ProgressTracker.init (env.clock 0) true) with
    | mk r3 rest3 =>
      rw [h3out] at h3
      simp only at h3
      subst h3
      obtain ⟨st3, log3⟩ := rest3
      simp [DuplicateFinder.metaPhase3Groups, Except.map]

/-- Witness for C2: two entries sharing `sha256 = "aa"` with owned payloads
form exactly one group containing both. -/
theorem findExactDuplicates_metadata_single_group_witness :
    ∃ hf : List DuplicateFinder.HashedFile,
      hf.map (fun x => x.entry)
          = [{ path := "a.jpg", file := some ⟨"a.jpg", 1, 1⟩, sha256 := some "aa" },
             { path := "b.jpg", file := some ⟨"b.jpg", 1, 2⟩, sha256 := some "aa" }]
      ∧ ∀ env : DuplicateFinder.Env,
        (DuplicateFinder.findExactDuplicates env
            [{ path := "a.jpg", file := some ⟨"a.jpg", 1, 1⟩, sha256 := some "aa" },
             { path := "b.jpg", file := some ⟨"b.jpg", 1, 2⟩, sha256 := some "aa" }] false).1
          = .ok [⟨"aa", hf⟩] :=
  findExactDuplicates_metadata_single_group _ "aa" (by decide) (by decide)
    (by intro e he; simp at he; rcases he with rfl | rfl <;> rfl)
    (by intro e he; simp at he; rcases he with rfl | rfl <;> rfl)

/-- Counterexample for C2 as stated ("for every set of entries"): a
*singleton* whose entry carries the strong-hash metadata trivially satisfies
"every entry carries identical strong-hash metadata", yet
`findExactDuplicates` returns *no* group at all (size-1 groups are dropped),
not one group containing it. -/
theorem findExactDuplicates_metadata_singleton_no_group :
    (DuplicateFinder.findExactDuplicates ⟨fun _ => 0, fun _ => "", fun _ => none⟩
        [{ path := "a.jpg", file := some ⟨"a.jpg", 1, 1⟩, sha256 := some "aa" }] false).1
      = .ok [] := rfl

namespace DuplicateFinder

theorem mapPush_flatten_perm {κ β : Type} [DecidableEq κ]
    (m : List (κ × List β)) (k : κ) (v : β) :
    ((mapPush m k v).flatMap fun p => p.2).Perm (v :: m.flatMap fun p => p.2) := by
  induction m with
  | nil => simp [mapPush]
  | cons p t ih =>
    unfold mapPush
    split
    · rename_i heq
      simp only [List.flatMap_cons, List.append_assoc]
      have hmid : (p.2 ++ v :: t.flatMap fun p => p.2).Perm
          (v :: (p.2 ++ t.flatMap fun p => p.2)) := List.perm_middle
      simp [hmid]
    · simp only [List.flatMap_cons]
      exact (List.Perm.append_left p.2 ih).trans List.perm_middle

theorem foldl_mapPush_flatten_perm {κ β : Type} [DecidableEq κ] (key : β → κ) :
    ∀ (l : List β) (m : List (κ × List β)),
      ((l.foldl (fun acc e => mapPush acc (key e) e) m).flatMap fun p => p.2).Perm
        ((m.flatMap fun p => p.2) ++ l) := by
  intro l
  induction l with
  | nil => intro m; simp
  | cons e t ih =>
    intro m
    rw [List.foldl_cons]
    refine (ih (mapPush m (key e) e)).trans ?_
    refine (List.Perm.append_right t (mapPush_flatten_perm m (key e) e)).trans ?_
    exact List.perm_middle.symm

theorem flatMap_filter_sublist {α β : Type} (P : α → Bool) (f : α → List β) :
    ∀ l : List α, ((l.filter P).flatMap f).Sublist (l.flatMap f) := by
  intro l
  induction l with
  | nil => simp
  | cons a t ih =>
    rw [List.filter_cons]
    split
    · simpa using List.Sublist.append_left ih (f a)
    · exact ih.trans (List.sublist_append_right _ _)

theorem mapPush_buckets_ne_nil {κ β : Type} [DecidableEq κ]
    (m : List (κ × List β)) (k : κ) (v : β)
    (h : ∀ b ∈ m, b.2 ≠ []) : ∀ b ∈ mapPush m k v, b.2 ≠ [] := by
  induction m with
  | nil =>
    intro b hb
    simp [mapPush] at hb
    simp [hb]
  | cons p t ih =>
    obtain ⟨kp, vsp⟩ := p
    intro b hb
    unfold mapPush at hb
    split at hb
    · rcases List.mem_cons.mp hb with heq | hmem
      · subst heq; simp
      · exact h b (List.mem_cons_of_mem _ hmem)
    · rcases List.mem_cons.mp hb with heq | hmem
      · subst heq; exact h (kp, vsp) (List.mem_cons_self _ _)
      · exact ih (fun c hc => h c (List.mem_cons_of_mem _ hc)) b hmem

theorem foldl_mapPush_buckets_ne_nil {κ β : Type} [DecidableEq κ] (key : β → κ) :
    ∀ (l : List β) (m : List (κ × List β)),
      (∀ b ∈ m, b.2 ≠ []) →
      ∀ b ∈ l.foldl (fun acc e => mapPush acc (key e) e) m, b.2 ≠ [] := by
  intro l
  induction l with
  | nil => intro m h; simpa using h
  | cons e t ih =>
    intro m h
    rw [List.foldl_cons]
    exact ih _ (mapPush_buckets_ne_nil m (key e) e h)

end DuplicateFinder

namespace DuplicateFinder

theorem metaPhase1_ok_inv (total : Nat) (key : HashKey) (ab : Bool) :
    ∀ (l : List FileSystem.FileEntry) (i : Nat) (m M),
      (metaPhase1 ab total key l i m).1 = .ok M →
      M = l.foldl (fun acc e => mapPush acc (entryHash key e) e) m := by
  intro l
  induction l with
  | nil =>
    intro i m M h
    simp only [metaPhase1] at h
    simpa using h.symm
  | cons e t ih =>
    intro i m M h
    simp only [metaPhase1] at h
    split at h
    · simp at h
    · rw [List.foldl_cons]
      exact ih (i + 1) (mapPush m (entryHash key e) e) M h

theorem metaPhase3Files_entries (env : Env) (totalDup : Nat) (h : String) (ab : Bool) :
    ∀ (l : List FileSystem.FileEntry) (c t : Nat) (tr : ProgressTracker) (hf),
      (metaPhase3Files env ab totalDup h l c t tr).1 = .ok hf →
      hf.map (fun x => x.entry) = l := by
  intro l
  induction l with
  | nil =>
    intro c t tr hf hh
    simp only [metaPhase3Files] at hh
    injection hh with h2
    simp [← h2]
  | cons e rest ih =>
    intro c t tr hf hh
    simp only [metaPhase3Files] at hh
    split at hh
    · simp at hh
    · split at hh
      · simp at hh
      · rename_i f hf2
        cases hr : (metaPhase3Files env ab totalDup h rest (c + 1) (t + 1)
            (tr.addBytes f.size)).1 with
        | error err => rw [hr] at hh; simp [Except.map] at hh
        | ok hfr =>
          rw [hr] at hh
          simp [Except.map] at hh
          rw [← hh]
          simp [ih _ _ _ hfr hr]

theorem metaPhase3Groups_entries (env : Env) (totalDup : Nat) (ab : Bool) :
    ∀ (buckets : List (String × List FileSystem.FileEntry)) (c t : Nat)
      (tr : ProgressTracker) (gs),
      (metaPhase3Groups env ab totalDup buckets c t tr).1 = .ok gs →
      gs.map (fun g => g.files.map fun x => x.entry) = buckets.map (fun b => b.2) := by
  intro buckets
  induction buckets with
  | nil =>
    intro c t tr gs h
    simp only [metaPhase3Groups] at h
    simp at h
    simp [← h]
  | cons b rest ih =>
    obtain ⟨hb, entries⟩ := b
    intro c t tr gs h
    simp only [metaPhase3Groups] at h
    split at h
    · simp at h
    · rename_i hf st log hsplit
      cases hr : (metaPhase3Groups env ab totalDup rest st.1 st.2.1 st.2.2).1 with
      | error err => rw [hr] at h; simp [Except.map] at h
      | ok gsr =>
        rw [hr] at h
        simp [Except.map] at h
        rw [← h]
        simp only [List.map_cons]
        have h1 : hf.map (fun x => x.entry) = entries :=
          metaPhase3Files_entries env totalDup hb ab entries c t tr hf (by
            rw [hsplit])
        rw [h1, ih st.1 st.2.1 st.2.2 gsr hr]

end DuplicateFinder

namespace DuplicateFinder

theorem exactFallbackLoop_perm (env : Env) (total : Nat) (ab : Bool) :
    ∀ (l : List FileSystem.FileEntry) (i tick : Nat) (tr : ProgressTracker)
      (m M : List (String × List HashedFile)),
      (exactFallbackLoop env ab total l i tick tr m).1 = .ok M →
      ((M.flatMap fun p => p.2).map fun x => x.entry).Perm
        (((m.flatMap fun p => p.2).map fun x => x.entry) ++ l) := by
  intro l
  induction l with
  | nil =>
    intro i tick tr m M h
    simp only [exactFallbackLoop] at h
    injection h with h2
    simp [← h2]
  | cons e t ih =>
    intro i tick tr m M h
    simp only [exactFallbackLoop] at h
    split at h
    · simp at h
    · split at h
      · simp at h
      · rename_i f hf
        have hperm := ih (i + 1) (tick + 1) (tr.addBytes f.size)
          (mapPush m (env.cryptoHash f) ⟨e, env.cryptoHash f, f⟩) M h
        have hstep : (((mapPush m (env.cryptoHash f)
              (⟨e, env.cryptoHash f, f⟩ : HashedFile)).flatMap fun p => p.2).map
              fun x => x.entry).Perm
            (e :: ((m.flatMap fun p => p.2).map fun x => x.entry)) := by
          simpa using (mapPush_flatten_perm m (env.cryptoHash f)
            (⟨e, env.cryptoHash f, f⟩ : HashedFile)).map fun x => x.entry
        exact hperm.trans ((List.Perm.append_right t hstep).trans List.perm_middle.symm)

theorem exactFallbackLoop_ne_nil (env : Env) (total : Nat) (ab : Bool) :
    ∀ (l : List FileSystem.FileEntry) (i tick : Nat) (tr : ProgressTracker)
      (m M : List (String × List HashedFile)),
      (exactFallbackLoop env ab total l i tick tr m).1 = .ok M →
      (∀ b ∈ m, b.2 ≠ []) → ∀ b ∈ M, b.2 ≠ [] := by
  intro l
  induction l with
  | nil =>
    intro i tick tr m M h hm
    simp only [exactFallbackLoop] at h
    injection h with h2
    simpa [← h2] using hm
  | cons e t ih =>
    intro i tick tr m M h hm
    simp only [exactFallbackLoop] at h
    split at h
    · simp at h
    · split at h
      · simp at h
      · rename_i f hf
        exact ih (i + 1) (tick + 1) (tr.addBytes f.size) _ M h
          (mapPush_buckets_ne_nil m _ _ hm)

end DuplicateFinder

namespace DuplicateFinder

theorem simDupesLoop_entries (env : Env) (hsh : String) :
    ∀ (l : List FileSystem.FileEntry) (tr : ProgressTracker),
      ((simDupesLoop env hsh l tr).1.map fun x => x.entry).Sublist l := by
  intro l
  induction l with
  | nil => intro tr; simp [simDupesLoop]
  | cons e t ih =>
    intro tr
    simp only [simDupesLoop]
    split
    · simp
    · rename_i f hf
      simpa using (ih (tr.addBytes f.size)).cons₂ e

theorem simFallbackLoop_entries (env : Env) (total : Nat) (ab : Bool) :
    ∀ (l : List FileSystem.FileEntry) (i tick : Nat) (tr : ProgressTracker) (hs),
      (simFallbackLoop env ab total l i tick tr).1 = .ok hs →
      (hs.map fun x => x.entry).Sublist l := by
  intro l
  induction l with
  | nil =>
    intro i tick tr hs h
    simp only [simFallbackLoop] at h
    injection h with h2
    simp [← h2]
  | cons e t ih =>
    intro i tick tr hs h
    simp only [simFallbackLoop] at h
    split at h
    · simp at h
    · cases hr : (simFallbackLoop env ab total t (i + 1) (tick + 1)
          (match FileSystem.fetchEntry e with
            | none => ([], tr)
            | some f =>
              match env.perceptualHash f with
              | none => ([], tr.addBytes f.size)
              | some hsh => ([(⟨e, hsh, f⟩ : HashedFile)], tr.addBytes f.size)).2).1 with
      | error err =>
        rw [hr] at h
        simp [Except.map] at h
      | ok hsr =>
        rw [hr] at h
        simp only [Except.map, Except.ok.injEq] at h
        have hsub := ih (i + 1) (tick + 1) _ hsr hr
        rw [← h]
        have hpush : ((((match FileSystem.fetchEntry e with
            | none => ([], tr)
            | some f =>
              match env.perceptualHash f with
              | none => ([], tr.addBytes f.size)
              | some hsh =>
                ([(⟨e, hsh, f⟩ : HashedFile)], tr.addBytes f.size)) :
            List HashedFile × ProgressTracker)).1.map
              fun x => x.entry).Sublist [e] := by
          split
          · simp
          · split
            · simp
            · simp
        simpa using List.Sublist.append hpush hsub

end DuplicateFinder

namespace DuplicateFinder

theorem simMetaLoop_entries (env : Env) (uc : Nat) (ab : Bool) :
    ∀ (buckets : List (String × List FileSystem.FileEntry)) (pu tick : Nat)
      (tr : ProgressTracker) (hs),
      (∀ b ∈ buckets, b.2 ≠ []) →
      (simMetaLoop env ab uc buckets pu tick tr).1 = .ok hs →
      (hs.map fun x => x.entry).Sublist (buckets.flatMap fun b => b.2) := by
  intro buckets
  induction buckets with
  | nil =>
    intro pu tick tr hs _ h
    simp only [simMetaLoop] at h
    injection h with h2
    simp [← h2]
  | cons b rest ih =>
    obtain ⟨kb, entries⟩ := b
    intro pu tick tr hs hne h
    obtain ⟨rep, tail, rfl⟩ : ∃ rep tail, entries = rep :: tail := by
      cases entries with
      | nil => exact absurd rfl (hne (kb, []) (List.mem_cons_self _ _))
      | cons rep tail => exact ⟨rep, tail, rfl⟩
    simp only [simMetaLoop] at h
    split at h
    · simp at h
    · cases hr : (simMetaLoop env ab uc rest (pu + 1) (tick + 1)
          ((match FileSystem.fetchEntry ((rep :: tail).headD default) with
            | none => ([], tr)
            | some file =>
              match env.perceptualHash file with
              | none => ([], tr.addBytes file.size)
              | some hsh =>
                ((⟨(rep :: tail).headD default, hsh, file⟩ : HashedFile)
                    :: (simDupesLoop env hsh (rep :: tail).tail (tr.addBytes file.size)).1,
                  (simDupesLoop env hsh (rep :: tail).tail (tr.addBytes file.size)).2)) :
            List HashedFile × ProgressTracker).2).1 with
      | error err =>
        rw [hr] at h
        simp [Except.map] at h
      | ok hsr =>
        rw [hr] at h
        simp only [Except.map, Except.ok.injEq] at h
        have hsub := ih (pu + 1) (tick + 1) _ hsr
          (fun c hc => hne c (List.mem_cons_of_mem _ hc)) hr
        rw [← h]
        have hpush : ((((match FileSystem.fetchEntry ((rep :: tail).headD default) with
            | none => ([], tr)
            | some file =>
              match env.perceptualHash file with
              | none => ([], tr.addBytes file.size)
              | some hsh =>
                ((⟨(rep :: tail).headD default, hsh, file⟩ : HashedFile)
                    :: (simDupesLoop env hsh (rep :: tail).tail (tr.addBytes file.size)).1,
                  (simDupesLoop env hsh (rep :: tail).tail (tr.addBytes file.size)).2)) :
            List HashedFile × ProgressTracker)).1.map
              fun x => x.entry).Sublist (rep :: tail) := by
          split
          · simp
          · split
            · simp
            · simp only [List.headD_cons, List.tail_cons, List.map_cons]
              exact (simDupesLoop_entries env _ tail _).cons₂ rep
        simpa using List.Sublist.append hpush hsub

end DuplicateFinder

namespace DuplicateFinder

theorem collectLoop_flatten_perm :
    ∀ (l p : List Nat) (m : List (Nat × List Nat)),
      (((collectLoop l p m).2.flatMap fun q => q.2)).Perm ((m.flatMap fun q => q.2) ++ l) := by
  intro l
  induction l with
  | nil => intro p m; simp [collectLoop]
  | cons i rest ih =>
    intro p m
    simp only [collectLoop]
    refine (ih _ _).trans ?_
    refine (List.Perm.append_right rest (mapPush_flatten_perm m (ufFind p i).2 i)).trans ?_
    exact List.perm_middle.symm

theorem collectLoop_buckets_ne_nil :
    ∀ (l p : List Nat) (m : List (Nat × List Nat)),
      (∀ b ∈ m, b.2 ≠ []) → ∀ b ∈ (collectLoop l p m).2, b.2 ≠ [] := by
  intro l
  induction l with
  | nil => intro p m h; simpa [collectLoop] using h
  | cons i rest ih =>
    intro p m h
    simp only [collectLoop]
    exact ih _ _ (mapPush_buckets_ne_nil m _ _ h)

theorem similarClusters_inv (dist : String → String → Except String Nat)
    (threshold : Nat) (ab : Bool) (hs : List HashedFile)
    (gs : List DuplicateGroup)
    (h : similarClusters dist threshold ab hs = .ok gs) :
    (∀ g ∈ gs, 2 ≤ g.files.length)
    ∧ ((hs.map fun x => x.entry).Nodup →
        (gs.flatMap fun g => g.files.map fun x => x.entry).Nodup) := by
  unfold similarClusters at h
  dsimp only at h
  split at h
  · simp at h
  · rename_i p hcmp
    simp only [Except.ok.injEq] at h
    constructor
    · intro g hg
      rw [← h] at hg
      obtain ⟨q, hq, rfl⟩ := List.mem_map.mp hg
      have := List.of_mem_filter hq
      simp only [decide_eq_true_eq] at this
      simpa using this
    · intro hnodup
      rw [← h]
      -- flatten of the groups' entries, as a map over the filtered index flatten
      have hflat : ((List.filter (fun q => decide (1 < q.2.length))
              (collectLoop (List.range hs.length) p []).2).map fun q =>
            DuplicateGroup.mk ((q.2.map fun i => hs.getD i default).headD default).hash
              (q.2.map fun i => hs.getD i default)).flatMap
            (fun g => g.files.map fun x => x.entry)
          = ((List.filter (fun q => decide (1 < q.2.length))
              (collectLoop (List.range hs.length) p []).2).flatMap fun q => q.2).map
              fun i => (hs.getD i default).entry := by
        rw [List.flatMap_map, List.map_flatMap]
        simp only [Function.comp, List.map_map]
        rfl
      rw [hflat]
      have hperm := collectLoop_flatten_perm (List.range hs.length) p []
      simp only [List.flatMap_nil, List.nil_append] at hperm
      have hallnodup : ((collectLoop (List.range hs.length) p []).2.flatMap
          fun q => q.2).Nodup := hperm.nodup_iff.mpr (List.nodup_range _)
      have hsublist := flatMap_filter_sublist (fun q => decide (1 < q.2.length))
        (fun q => q.2) (collectLoop (List.range hs.length) p []).2
      have hfilnodup := hsublist.nodup hallnodup
      refine List.Nodup.map_on ?_ hfilnodup
      intro i hi j hj hij
      have hiR : i ∈ List.range hs.length := hperm.subset (hsublist.subset hi)
      have hjR : j ∈ List.range hs.length := hperm.subset (hsublist.subset hj)
      have hilt := List.mem_range.mp hiR
      have hjlt := List.mem_range.mp hjR
      rw [List.getD_eq_getElem hs default hilt, List.getD_eq_getElem hs default hjlt] at hij
      have hmap : (hs.map fun x => x.entry).get ⟨i, by simpa using hilt⟩
          = (hs.map fun x => x.entry).get ⟨j, by simpa using hjlt⟩ := by
        simpa using hij
      have hfin := (List.Nodup.get_inj_iff hnodup).mp hmap
      exact congrArg Fin.val hfin

end DuplicateFinder

namespace DuplicateFinder

theorem flatMap_groups_entries (l : List (String × List HashedFile)) :
    ((l.map fun p => DuplicateGroup.mk p.1 p.2).flatMap fun g => g.files.map fun x => x.entry)
      = ((l.flatMap fun p => p.2).map fun x => x.entry) := by
  induction l with
  | nil => rfl
  | cons p t ih => simp [ih]

end DuplicateFinder

/-- **C5.** For every input on which they return successfully, both
`findExactDuplicates` and `findSimilarDuplicates` return only groups with at
least 2 members, and — whenever the input entries are pairwise distinct —
the returned groups are pairwise disjoint: the concatenation of all group
members' entries is duplicate-free, so every entry appears in at most one
group (and at most once within it). -/
theorem grouping_min_size_and_disjoint :
    (∀ (env : DuplicateFinder.Env) (files : List FileSystem.FileEntry) (sig : Bool)
        (gs : List DuplicateFinder.DuplicateGroup) (log : List DuplicateFinder.ScanProgress),
      DuplicateFinder.findExactDuplicates env files sig = (.ok gs, log) →
      (∀ g ∈ gs, 2 ≤ g.files.length)
      ∧ (files.Nodup →
          (gs.flatMap fun g => g.files.map fun x => x.entry).Nodup))
    ∧ (∀ (env : DuplicateFinder.Env) (files : List FileSystem.FileEntry) (thr : Nat)
        (sig : Bool) (gs : List DuplicateFinder.DuplicateGroup)
        (log : List DuplicateFinder.ScanProgress),
      DuplicateFinder.findSimilarDuplicates env files thr sig = (.ok gs, log) →
      (∀ g ∈ gs, 2 ≤ g.files.length)
      ∧ (files.Nodup →
          (gs.flatMap fun g => g.files.map fun x => x.entry).Nodup)) := by
  constructor
  · intro env files sig gs log h
    unfold DuplicateFinder.findExactDuplicates at h
    cases hkey : DuplicateFinder.getMetadataHashKey files with
    | some key =>
      rw [hkey] at h
      unfold DuplicateFinder.findExactDuplicatesByMetadata at h
      dsimp only at h
      cases hp1 : (DuplicateFinder.metaPhase1 sig files.length key files 0 []).1 with
      | error e => rw [hp1] at h; simp at h
      | ok hashMap =>
        rw [hp1] at h
        simp only at h
        have hM := DuplicateFinder.metaPhase1_ok_inv files.length key sig files 0 [] hashMap hp1
        have hg3 : (DuplicateFinder.metaPhase3Groups env sig
            ((List.map (fun p => p.2.length)
              (hashMap.filter fun p => decide (1 < p.2.length))).sum)
            (hashMap.filter fun p => decide (1 < p.2.length)) 0 1
            (DuplicateFinder.ProgressTracker.init (env.clock 0) true)).1 = .ok gs := by
          have := congrArg Prod.fst h
          simpa using this
        have hent := DuplicateFinder.metaPhase3Groups_entries env _ sig _ 0 1 _ gs hg3
        constructor
        · intro g hg
          have hmem : (g.files.map fun x => x.entry)
              ∈ (hashMap.filter fun p => decide (1 < p.2.length)).map fun b => b.2 := by
            rw [← hent]
            exact List.mem_map_of_mem _ hg
          obtain ⟨b, hb, hbe⟩ := List.mem_map.mp hmem
          have hlen := List.of_mem_filter hb
          simp only [decide_eq_true_eq] at hlen
          have hleq : g.files.length = b.2.length := by
            rw [hbe]
            simp
          omega
        · intro hnd
          have hflatten : (gs.flatMap fun g => g.files.map fun x => x.entry)
              = (hashMap.filter fun p => decide (1 < p.2.length)).flatMap fun b => b.2 := by
            show (gs.map fun g => g.files.map fun x => x.entry).flatten
              = ((hashMap.filter fun p => decide (1 < p.2.length)).map fun b => b.2).flatten
            rw [hent]
          rw [hflatten]
          have hsub := DuplicateFinder.flatMap_filter_sublist
            (fun p => decide (1 < p.2.length)) (fun b => b.2) hashMap
          have hperm : (hashMap.flatMap fun b => b.2).Perm files := by
            rw [hM]
            have := DuplicateFinder.foldl_mapPush_flatten_perm
              (fun e => DuplicateFinder.entryHash key e) files []
            simpa using this
          exact hsub.nodup (hperm.nodup_iff.mpr hnd)
    | none =>
      rw [hkey] at h
      dsimp only at h
      split at h
      · simp at h
      · rename_i hashMap log1 heq
        rw [Prod.mk.injEq] at h
        obtain ⟨hgs, _⟩ := h
        injection hgs with hgs2
        constructor
        · intro g hg
          rw [← hgs2] at hg
          obtain ⟨b, hb, rfl⟩ := List.mem_map.mp hg
          have hlen := List.of_mem_filter hb
          simp only [decide_eq_true_eq] at hlen
          simpa using hlen
        · intro hnd
          rw [← hgs2]
          rw [DuplicateFinder.flatMap_groups_entries]
          have hfperm : ((hashMap.flatMap fun p => p.2).map fun x => x.entry).Perm files := by
            have hok := congrArg Prod.fst heq
            simp only at hok
            have := DuplicateFinder.exactFallbackLoop_perm env files.length sig files 0 1
              _ [] hashMap hok
            simpa using this
          have hsub : (((hashMap.filter fun p => decide (1 < p.2.length)).flatMap
                fun p => p.2).map fun x => x.entry).Sublist
              ((hashMap.flatMap fun p => p.2).map fun x => x.entry) :=
            (DuplicateFinder.flatMap_filter_sublist _ _ hashMap).map _
          exact hsub.nodup (hfperm.nodup_iff.mpr hnd)
  · intro env files thr sig gs log h
    unfold DuplicateFinder.findSimilarDuplicates at h
    dsimp only at h
    by_cases hmeta : (decide (0 < files.length)
        && files.all fun f => DuplicateFinder.truthyStr f.md5) = true
    · rw [if_pos hmeta] at h
      split at h
      · simp at h
      · rename_i hs logA heq
        split at h
        · simp at h
        · rename_i gs0 heq2
          rw [Prod.mk.injEq] at h
          obtain ⟨hgs, _⟩ := h
          injection hgs with hgs2
          subst hgs2
          have hinv := DuplicateFinder.similarClusters_inv ImageHash.hammingDistance thr sig
            hs gs0 heq2
          refine ⟨hinv.1, ?_⟩
          intro hnd
          refine hinv.2 ?_
          have hok : (DuplicateFinder.simMetaLoop env sig
              (files.foldl (fun m e => DuplicateFinder.mapPush m (e.md5.getD "") e) []).length
              (files.foldl (fun m e => DuplicateFinder.mapPush m (e.md5.getD "") e) []) 0 1
              (DuplicateFinder.ProgressTracker.init (env.clock 0) true)).1 = .ok hs := by
            rw [heq]
          have hsubl := DuplicateFinder.simMetaLoop_entries env _ sig _ 0 1 _ hs
            (DuplicateFinder.foldl_mapPush_buckets_ne_nil
              (fun e : FileSystem.FileEntry => e.md5.getD "") files [] (by simp)) hok
          have hperm : ((files.foldl
              (fun m e => DuplicateFinder.mapPush m (e.md5.getD "") e) []).flatMap
              fun b => b.2).Perm files := by
            have := DuplicateFinder.foldl_mapPush_flatten_perm
              (fun e : FileSystem.FileEntry => e.md5.getD "") files []
            simpa using this
          exact hsubl.nodup (hperm.nodup_iff.mpr hnd)
    · rw [if_neg hmeta] at h
      split at h
      · simp at h
      · rename_i hs logA heq
        split at h
        · simp at h
        · rename_i gs0 heq2
          rw [Prod.mk.injEq] at h
          obtain ⟨hgs, _⟩ := h
          injection hgs with hgs2
          subst hgs2
          have hinv := DuplicateFinder.similarClusters_inv ImageHash.hammingDistance thr sig
            hs gs0 heq2
          refine ⟨hinv.1, ?_⟩
          intro hnd
          refine hinv.2 ?_
          have hok := congrArg Prod.fst heq
          simp only at hok
          exact (DuplicateFinder.simFallbackLoop_entries env files.length sig files 0 1 _
            hs hok).nodup hnd

/-- Witness for C5: the exact-duplicate grouper run on two distinct local
entries hashing to the same digest returns groups that all have ≥ 2 members
and duplicate-free flattened membership. -/
theorem grouping_min_size_and_disjoint_witness :
    (∀ g ∈ (DuplicateFinder.findExactDuplicates ⟨fun _ => 0, fun _ => "h", fun _ => none⟩
        [{ path := "a.jpg", file := some ⟨"a.jpg", 1, 1⟩ },
         { path := "b.jpg", file := some ⟨"b.jpg", 1, 1⟩ }] false).1.toOption.getD [],
      2 ≤ g.files.length)
    ∧ (((DuplicateFinder.findExactDuplicates ⟨fun _ => 0, fun _ => "h", fun _ => none⟩
        [{ path := "a.jpg", file := some ⟨"a.jpg", 1, 1⟩ },
         { path := "b.jpg", file := some ⟨"b.jpg", 1, 1⟩ }] false).1.toOption.getD
        []).flatMap fun g => g.files.map fun x => x.entry).Nodup := by
  have hnd : ([{ path := "a.jpg", file := some ⟨"a.jpg", 1, 1⟩ },
      { path := "b.jpg", file := some ⟨"b.jpg", 1, 1⟩ }] :
        List FileSystem.FileEntry).Nodup := by
    refine List.nodup_cons.mpr ⟨?_, List.nodup_singleton _⟩
    intro hmem
    simp only [List.mem_singleton] at hmem
    have := congrArg FileSystem.FileEntry.path hmem
    simp at this
  have h := grouping_min_size_and_disjoint.1 ⟨fun _ => 0, fun _ => "h", fun _ => none⟩
    [{ path := "a.jpg", file := some ⟨"a.jpg", 1, 1⟩ },
     { path := "b.jpg", file := some ⟨"b.jpg", 1, 1⟩ }] false
    ((DuplicateFinder.findExactDuplicates ⟨fun _ => 0, fun _ => "h", fun _ => none⟩
        [{ path := "a.jpg", file := some ⟨"a.jpg", 1, 1⟩ },
         { path := "b.jpg", file := some ⟨"b.jpg", 1, 1⟩ }] false).1.toOption.getD [])
    ((DuplicateFinder.findExactDuplicates ⟨fun _ => 0, fun _ => "h", fun _ => none⟩
        [{ path := "a.jpg", file := some ⟨"a.jpg", 1, 1⟩ },
         { path := "b.jpg", file := some ⟨"b.jpg", 1, 1⟩ }] false).2) rfl
  exact ⟨h.1, h.2 hnd⟩

namespace DuplicateFinder

theorem reachesIn_fn {p : List Nat} :
    ∀ {x k r k' r'}, ReachesIn p x k r → ReachesIn p x k' r' → k = k' ∧ r = r' := by
  intro x k r k' r' h1
  induction h1 generalizing k' r' with
  | root x hx =>
    intro h2
    cases h2 with
    | root _ _ => exact ⟨rfl, rfl⟩
    | step _ _ _ hne _ => exact absurd hx hne
  | step x k r hne hrec ih =>
    intro h2
    cases h2 with
    | root _ hx => exact absurd hx hne
    | step _ k2 r2 hne2 hrec2 =>
      obtain ⟨hk, hr⟩ := ih hrec2
      exact ⟨by omega, hr⟩

theorem reachesIn_root {p : List Nat} :
    ∀ {x k r}, ReachesIn p x k r → p.getD r r = r := by
  intro x k r h
  induction h with
  | root _ hx => exact hx
  | step _ _ _ _ _ ih => exact ih

theorem getD_set_self (p : List Nat) (x v : Nat) (hx : x < p.length) :
    (p.set x v).getD x x = v := by
  rw [List.getD_eq_getElem _ _ (by simpa using hx)]
  simp [List.getElem_set_self]

theorem getD_set_ne (p : List Nat) (x v z : Nat) (hne : z ≠ x) :
    (p.set x v).getD z z = p.getD z z := by
  by_cases hz : z < p.length
  · rw [List.getD_eq_getElem _ _ (by simpa using hz), List.getD_eq_getElem _ _ hz]
    exact List.getElem_set_ne (Ne.symm hne) (by simpa using hz)
  · rw [List.getD_eq_default _ _ (by simpa using not_lt.mp hz),
      List.getD_eq_default _ _ (not_lt.mp hz)]

theorem lt_length_of_not_root {p : List Nat} {x : Nat} (h : p.getD x x ≠ x) :
    x < p.length := by
  by_contra hge
  exact h (List.getD_eq_default _ _ (not_lt.mp hge))

theorem reachesIn_set_of_lt {p : List Nat} {x k r v : Nat}
    (hx : p.getD x x ≠ x) (hk : ReachesIn p x k r) :
    ∀ {z j}, ReachesIn p z j r → j < k → ReachesIn (p.set x v) z j r := by
  intro z j hz
  induction hz with
  | root z hroot =>
    intro _
    have hne : z ≠ x := by
      intro h
      rw [h] at hroot
      exact hx hroot
    exact .root z (by rw [getD_set_ne p x v z hne]; exact hroot)
  | step z j r hne hrec ih =>
    intro hj
    have hzx : z ≠ x := by
      intro h
      have hstep : ReachesIn p x (j + 1) r := by
        rw [← h]
        exact ReachesIn.step z j r hne hrec
      obtain ⟨hk2, -⟩ := reachesIn_fn hstep hk
      omega
    have hpar : (p.set x v).getD z z = p.getD z z := getD_set_ne p x v z hzx
    refine .step z j r (by rw [hpar]; exact hne) ?_
    rw [hpar]
    exact ih hk (by omega)

theorem reaches_set_iff {p : List Nat} {x v k m r : Nat}
    (hx : p.getD x x ≠ x) (hk : ReachesIn p x k r) (hv : ReachesIn p v m r)
    (hm : m < k) :
    ∀ z ρ, Reaches (p.set x v) z ρ ↔ Reaches p z ρ := by
  have hxlen : x < p.length := lt_length_of_not_root hx
  have hvx : v ≠ x := by
    intro h
    have hv2 : ReachesIn p x m r := by rw [← h]; exact hv
    obtain ⟨he, -⟩ := reachesIn_fn hv2 hk
    omega
  intro z ρ
  constructor
  · rintro ⟨j, hj⟩
    induction hj with
    | root z hroot =>
      by_cases hxz : x = z
      · subst hxz
        rw [getD_set_self p x v hxlen] at hroot
        exact absurd hroot hvx
      · exact ⟨0, .root z (by rwa [getD_set_ne p x v z (Ne.symm hxz)] at hroot)⟩
    | step z j ρ hne hrec ih =>
      by_cases hxz : x = z
      · subst hxz
        rw [getD_set_self p x v hxlen] at hrec
        have hvchain : ReachesIn (p.set x v) v m r :=
          reachesIn_set_of_lt hx hk hv hm
        obtain ⟨-, hρ⟩ := reachesIn_fn hrec hvchain
        subst hρ
        exact ⟨k, hk⟩
      · have hpar : (p.set x v).getD z z = p.getD z z := getD_set_ne p x v z (Ne.symm hxz)
        rw [hpar] at ih
        obtain ⟨j2, hj2⟩ := ih
        exact ⟨j2 + 1, .step z j2 ρ (by rw [← hpar]; exact hne) hj2⟩
  · rintro ⟨j, hj⟩
    induction hj with
    | root z hroot =>
      have hzx : z ≠ x := by
        intro h
        rw [h] at hroot
        exact hx hroot
      exact ⟨0, .root z (by rw [getD_set_ne p x v z hzx]; exact hroot)⟩
    | step z j ρ hne hrec ih =>
      by_cases hxz : x = z
      · subst hxz
        have hstep : ReachesIn p x (j + 1) ρ := ReachesIn.step x j ρ hne hrec
        obtain ⟨-, hρ⟩ := reachesIn_fn hstep hk
        subst hρ
        refine ⟨m + 1, .step x m ρ ?_ ?_⟩
        · rw [getD_set_self p x v hxlen]
          exact hvx
        · rw [getD_set_self p x v hxlen]
          exact reachesIn_set_of_lt hx hk hv hm
      · obtain ⟨j2, hj2⟩ := ih
        have hpar : (p.set x v).getD z z = p.getD z z := getD_set_ne p x v z (Ne.symm hxz)
        exact ⟨j2 + 1, .step z j2 ρ (by rw [hpar]; exact hne) (by rw [hpar]; exact hj2)⟩

theorem reachesIn_getD {p : List Nat} {y j r : Nat} (h : ReachesIn p y j r) :
    ReachesIn p (p.getD y y) (j - 1) r := by
  cases h with
  | root y hroot =>
    rw [hroot]
    exact .root y hroot
  | step y j r hne hrec => simpa using hrec

theorem reachesIn_parIter {p : List Nat} :
    ∀ {i x k r : Nat}, ReachesIn p x k r → i ≤ k →
      ReachesIn p (parIter p i x) (k - i) r := by
  intro i
  induction i with
  | zero =>
    intro x k r h _
    simpa [parIter] using h
  | succ i ih =>
    intro x k r h hi
    cases h with
    | root x hroot => omega
    | step x j r hne hrec =>
      have h2 := ih hrec (by omega)
      have hj : j - i = j + 1 - (i + 1) := by omega
      rw [hj] at h2
      exact h2

theorem chain_le_length {p : List Nat} {x k r : Nat} (h : ReachesIn p x k r) :
    k ≤ p.length := by
  classical
  set L := (List.range k).map (fun i => parIter p i x) with hL
  have hnodup : L.Nodup := by
    refine List.Nodup.map_on ?_ (List.nodup_range k)
    intro i hi j hj heq
    have hi2 : i < k := List.mem_range.mp hi
    have hj2 : j < k := List.mem_range.mp hj
    have c1 := reachesIn_parIter h (le_of_lt hi2)
    have c2 := reachesIn_parIter h (le_of_lt hj2)
    rw [heq] at c1
    obtain ⟨hk, -⟩ := reachesIn_fn c1 c2
    omega
  have hmem : ∀ a ∈ L, a < p.length := by
    intro a ha
    obtain ⟨i, hi, hia⟩ := List.mem_map.mp ha
    have hi2 : i < k := List.mem_range.mp hi
    have c1 := reachesIn_parIter h (le_of_lt hi2)
    rw [hia] at c1
    obtain ⟨m, hm⟩ : ∃ m, k - i = m + 1 := ⟨k - i - 1, by omega⟩
    rw [hm] at c1
    cases c1 with
    | step _ _ _ hne _ => exact lt_length_of_not_root hne
  have hsub : L.toFinset ⊆ Finset.range p.length := by
    intro a ha
    exact Finset.mem_range.mpr (hmem a (List.mem_toFinset.mp ha))
  have hcard := Finset.card_le_card hsub
  rw [List.toFinset_card_of_nodup hnodup, Finset.card_range] at hcard
  simpa [hL] using hcard

theorem bounded_set {p : List Nat} {x v : Nat} (hb : Bounded p) (hv : v < p.length) :
    Bounded (p.set x v) := by
  intro i hi
  rw [List.length_set] at hi
  by_cases hix : i = x
  · subst hix
    rw [getD_set_self p i v hi, List.length_set]
    exact hv
  · rw [getD_set_ne p x v i hix, List.length_set]
    exact hb i hi

theorem findAux_spec :
    ∀ (fuel : Nat) (p : List Nat) (x k r : Nat), ReachesIn p x k r → k ≤ 2 * fuel →
    (findAux fuel p x).2 = r ∧
    (findAux fuel p x).1.length = p.length ∧
    (∀ z ρ, Reaches (findAux fuel p x).1 z ρ ↔ Reaches p z ρ) ∧
    (Bounded p → Bounded (findAux fuel p x).1) := by
  intro fuel
  induction fuel with
  | zero =>
    intro p x k r h hk
    have hk0 : k = 0 := by omega
    subst hk0
    cases h with
    | root x hroot =>
      exact ⟨rfl, rfl, fun z ρ => Iff.rfl, fun hb => hb⟩
  | succ fuel ih =>
    intro p x k r h hk
    simp only [findAux]
    by_cases hroot : p.getD x x = x
    · rw [if_pos hroot]
      cases h with
      | root _ _ => exact ⟨rfl, rfl, fun z ρ => Iff.rfl, fun hb => hb⟩
      | step _ _ _ hne _ => exact absurd hroot hne
    · rw [if_neg hroot]
      cases h with
      | root _ h0 => exact absurd h0 hroot
      | step _ j r hne hrec =>
        have hgp : ReachesIn p (p.getD (p.getD x x) (p.getD x x)) (j - 1) r :=
          reachesIn_getD hrec
        have hlt : j - 1 < j + 1 := by omega
        have hiff := reaches_set_iff hne (ReachesIn.step x j r hne hrec) hgp hlt
        have htrans : ReachesIn (p.set x (p.getD (p.getD x x) (p.getD x x)))
            (p.getD (p.getD x x) (p.getD x x)) (j - 1) r :=
          reachesIn_set_of_lt hne (ReachesIn.step x j r hne hrec) hgp hlt
        obtain ⟨h1, h2, h3, h4⟩ := ih _ _ _ _ htrans (by omega)
        refine ⟨h1, by rw [h2, List.length_set], ?_, ?_⟩
        · intro z ρ
          rw [h3 z ρ, hiff z ρ]
        · intro hb
          refine h4 (bounded_set hb ?_)
          have hx : x < p.length := lt_length_of_not_root hne
          have h5 : p.getD x x < p.length := hb x hx
          exact hb _ h5

theorem ufFind_spec {p : List Nat} {x k r : Nat} (h : ReachesIn p x k r) :
    (ufFind p x).2 = r ∧ (ufFind p x).1.length = p.length ∧
    (∀ z ρ, Reaches (ufFind p x).1 z ρ ↔ Reaches p z ρ) ∧
    (Bounded p → Bounded (ufFind p x).1) :=
  findAux_spec p.length p x k r h (by have := chain_le_length h; omega)

theorem reaches_fn {p : List Nat} {z r1 r2 : Nat}
    (h1 : Reaches p z r1) (h2 : Reaches p z r2) : r1 = r2 := by
  obtain ⟨k1, h1⟩ := h1
  obtain ⟨k2, h2⟩ := h2
  exact (reachesIn_fn h1 h2).2

theorem reaches_root {p : List Nat} {z r : Nat} (h : Reaches p z r) :
    p.getD r r = r := by
  obtain ⟨k, h⟩ := h
  exact reachesIn_root h

theorem reaches_of_root {p : List Nat} {s : Nat} (hs : p.getD s s = s) :
    Reaches p s s := ⟨0, .root s hs⟩

theorem root_lt_length {p : List Nat} (hb : Bounded p) :
    ∀ {z k r : Nat}, ReachesIn p z k r → z < p.length → r < p.length := by
  intro z k r h
  induction h with
  | root x hroot => exact fun hz => hz
  | step x k r hne hrec ih =>
    intro _
    exact ih (hb x (lt_length_of_not_root hne))

theorem reaches_set_to_new_root {p : List Nat} {s t : Nat}
    (hts : t ≠ s) (ht : p.getD t t = t) (hslen : s < p.length) :
    ∀ {z j r}, ReachesIn p z j r → r = s → Reaches (p.set s t) z t := by
  intro z j r h
  induction h with
  | root z hroot =>
    intro hz
    subst hz
    refine ⟨1, .step z 0 t ?_ ?_⟩
    · rw [getD_set_self p z t hslen]
      exact hts
    · rw [getD_set_self p z t hslen]
      exact .root t (by rw [getD_set_ne p z t t hts]; exact ht)
  | step z j r hne hrec ih =>
    intro hr
    obtain ⟨j2, hj2⟩ := ih hr
    have hzs : z ≠ s := by
      intro h
      have hroot : p.getD r r = r := reachesIn_root hrec
      have hzr : z = r := h.trans hr.symm
      rw [hzr] at hne
      exact hne hroot
    have hpar : (p.set s t).getD z z = p.getD z z := getD_set_ne p s t z hzs
    exact ⟨j2 + 1, .step z j2 t (by rw [hpar]; exact hne) (by rw [hpar]; exact hj2)⟩

theorem reaches_set_avoid {p : List Nat} {s t : Nat} (hs : p.getD s s = s) :
    ∀ {z j r}, ReachesIn p z j r → r ≠ s → ReachesIn (p.set s t) z j r := by
  intro z j r h
  induction h with
  | root z hroot =>
    intro hz
    exact .root z (by rw [getD_set_ne p s t z hz]; exact hroot)
  | step z j r hne hrec ih =>
    intro hr
    have hzs : z ≠ s := by
      intro h
      rw [h] at hne
      exact hne hs
    have hpar : (p.set s t).getD z z = p.getD z z := getD_set_ne p s t z hzs
    exact .step z j r (by rw [hpar]; exact hne) (by rw [hpar]; exact ih hr)

theorem reaches_root_set {p : List Nat} {s t : Nat}
    (hs : p.getD s s = s) (ht : p.getD t t = t) (hst : s ≠ t) (hslen : s < p.length) :
    ∀ z ρ, Reaches (p.set s t) z ρ ↔
      ((Reaches p z s ∧ ρ = t) ∨ (Reaches p z ρ ∧ ρ ≠ s)) := by
  have hts : t ≠ s := Ne.symm hst
  intro z ρ
  constructor
  · rintro ⟨j, hj⟩
    induction hj with
    | root z hroot =>
      by_cases hsz : s = z
      · subst hsz
        rw [getD_set_self p s t hslen] at hroot
        exact absurd hroot hts
      · right
        rw [getD_set_ne p s t z (Ne.symm hsz)] at hroot
        exact ⟨⟨0, .root z hroot⟩, Ne.symm hsz⟩
    | step z j ρ hne hrec ih =>
      by_cases hsz : s = z
      · subst hsz
        rw [getD_set_self p s t hslen] at hrec
        have htroot : ReachesIn (p.set s t) t 0 t :=
          .root t (by rw [getD_set_ne p s t t hts]; exact ht)
        obtain ⟨-, hρ⟩ := reachesIn_fn hrec htroot
        exact Or.inl ⟨⟨0, .root s hs⟩, hρ⟩
      · have hpar : (p.set s t).getD z z = p.getD z z := getD_set_ne p s t z (Ne.symm hsz)
        rw [hpar] at ih
        rcases ih with ⟨⟨j2, hj2⟩, hρ⟩ | ⟨⟨j2, hj2⟩, hρ⟩
        · exact Or.inl ⟨⟨j2 + 1, .step z j2 s (by rw [← hpar]; exact hne) hj2⟩, hρ⟩
        · exact Or.inr ⟨⟨j2 + 1, .step z j2 ρ (by rw [← hpar]; exact hne) hj2⟩, hρ⟩
  · rintro (⟨⟨j, hj⟩, rfl⟩ | ⟨⟨j, hj⟩, hρ⟩)
    · exact reaches_set_to_new_root hts ht hslen hj rfl
    · exact ⟨j, reaches_set_avoid hs hj hρ⟩

theorem reaches_iff_sameClass {p : List Nat} {a ra : Nat} (hra : Reaches p a ra) :
    ∀ z, Reaches p z ra ↔ sameClass p z a := by
  intro z
  constructor
  · intro h
    exact ⟨ra, h, hra⟩
  · rintro ⟨ρ, hz, haρ⟩
    rwa [reaches_fn haρ hra] at hz

theorem ufUnion_spec {p : List Nat} {a b : Nat} (hUF : UFok p)
    (ha : a < p.length) (hb : b < p.length) :
    (ufUnion p a b).length = p.length ∧
    UFok (ufUnion p a b) ∧
    ∀ z w, sameClass (ufUnion p a b) z w ↔
      (sameClass p z w ∨ (sameClass p z a ∧ sameClass p w b) ∨
       (sameClass p z b ∧ sameClass p w a)) := by
  obtain ⟨hbd, hroots⟩ := hUF
  obtain ⟨ra, hra⟩ := hroots a ha
  obtain ⟨ka, hraIn⟩ := hra
  obtain ⟨h1a, h2a, h3a, h4a⟩ := ufFind_spec hraIn
  have hrb0 := hroots b hb
  obtain ⟨rb, hrb⟩ := hrb0
  have hrbP1 : Reaches (ufFind p a).1 b rb := (h3a b rb).mpr hrb
  obtain ⟨kb, hrbIn⟩ := hrbP1
  obtain ⟨h1b, h2b, h3b, h4b⟩ := ufFind_spec hrbIn
  have hra' : Reaches p a ra := ⟨ka, hraIn⟩
  set P2 := (ufFind (ufFind p a).1 b).1 with hP2
  have hlen2 : P2.length = p.length := by rw [hP2, h2b, h2a]
  have hbd2 : Bounded P2 := h4b (h4a hbd)
  have hiff : ∀ z ρ, Reaches P2 z ρ ↔ Reaches p z ρ := fun z ρ => (h3b z ρ).trans (h3a z ρ)
  have hq : ufUnion p a b = if ra ≠ rb then P2.set ra rb else P2 := by
    simp only [ufUnion]
    rw [h1a, h1b]
  have hralen : ra < p.length := root_lt_length hbd hraIn ha
  have hrblen : rb < p.length := by
    obtain ⟨kb0, hrbIn0⟩ := hrb
    exact root_lt_length hbd hrbIn0 hb
  by_cases hrarb : ra = rb
  · rw [hq, if_neg (by simp [hrarb])]
    refine ⟨hlen2, ⟨hbd2, ?_⟩, ?_⟩
    · intro x hx
      rw [hlen2] at hx
      obtain ⟨r, hr⟩ := hroots x hx
      exact ⟨r, (hiff x r).mpr hr⟩
    · intro z w
      have hcls : sameClass P2 z w ↔ sameClass p z w := by
        constructor
        · rintro ⟨ρ, hz, hw⟩
          exact ⟨ρ, (hiff z ρ).mp hz, (hiff w ρ).mp hw⟩
        · rintro ⟨ρ, hz, hw⟩
          exact ⟨ρ, (hiff z ρ).mpr hz, (hiff w ρ).mpr hw⟩
      rw [hcls]
      constructor
      · exact Or.inl
      · rintro (h | ⟨⟨ρ1, hz, haρ⟩, ⟨ρ2, hw, hbρ⟩⟩ | ⟨⟨ρ1, hz, hbρ⟩, ⟨ρ2, hw, haρ⟩⟩)
        · exact h
        · rw [reaches_fn haρ hra'] at hz
          rw [reaches_fn hbρ hrb] at hw
          exact ⟨ra, hz, hrarb ▸ hw⟩
        · rw [reaches_fn hbρ hrb] at hz
          rw [reaches_fn haρ hra'] at hw
          exact ⟨ra, hrarb ▸ hz, hw⟩
  · rw [hq, if_pos (by simpa using hrarb)]
    have hraP2 : Reaches P2 a ra := (hiff a ra).mpr hra'
    have hrbP2 : Reaches P2 b rb := (hiff b rb).mpr hrb
    have hsP2 : P2.getD ra ra = ra := reaches_root hraP2
    have htP2 : P2.getD rb rb = rb := reaches_root hrbP2
    have hslenP2 : ra < P2.length := by rw [hlen2]; exact hralen
    have hmerge0 := reaches_root_set hsP2 htP2 hrarb hslenP2
    have hmerge : ∀ z ρ, Reaches (P2.set ra rb) z ρ ↔
        ((Reaches p z ra ∧ ρ = rb) ∨ (Reaches p z ρ ∧ ρ ≠ ra)) := by
      intro z ρ
      rw [hmerge0 z ρ, hiff z ra, hiff z ρ]
    refine ⟨by rw [List.length_set, hlen2], ⟨?_, ?_⟩, ?_⟩
    · exact bounded_set hbd2 (by rw [hlen2]; exact hrblen)
    · intro x hx
      rw [List.length_set, hlen2] at hx
      obtain ⟨ρ, hρ⟩ := hroots x hx
      by_cases hρra : ρ = ra
      · exact ⟨rb, (hmerge x rb).mpr (Or.inl ⟨hρra ▸ hρ, rfl⟩)⟩
      · exact ⟨ρ, (hmerge x ρ).mpr (Or.inr ⟨hρ, hρra⟩)⟩
    · intro z w
      constructor
      · rintro ⟨ρ, hz, hw⟩
        rcases (hmerge z ρ).mp hz with ⟨hzra, hρ⟩ | ⟨hzρ, hρne⟩
        · rcases (hmerge w ρ).mp hw with ⟨hwra, -⟩ | ⟨hwρ, -⟩
          · exact Or.inl ⟨ra, hzra, hwra⟩
          · refine Or.inr (Or.inl ⟨(reaches_iff_sameClass hra' z).mp hzra, ?_⟩)
            rw [hρ] at hwρ
            exact (reaches_iff_sameClass hrb w).mp hwρ
        · rcases (hmerge w ρ).mp hw with ⟨hwra, hρ⟩ | ⟨hwρ, -⟩
          · refine Or.inr (Or.inr ⟨?_, (reaches_iff_sameClass hra' w).mp hwra⟩)
            rw [hρ] at hzρ
            exact (reaches_iff_sameClass hrb z).mp hzρ
          · exact Or.inl ⟨ρ, hzρ, hwρ⟩
      · rintro (⟨ρ, hz, hw⟩ | ⟨hza, hwb⟩ | ⟨hzb, hwa⟩)
        · by_cases hρra : ρ = ra
          · subst hρra
            exact ⟨rb, (hmerge z rb).mpr (Or.inl ⟨hz, rfl⟩),
              (hmerge w rb).mpr (Or.inl ⟨hw, rfl⟩)⟩
          · exact ⟨ρ, (hmerge z ρ).mpr (Or.inr ⟨hz, hρra⟩),
              (hmerge w ρ).mpr (Or.inr ⟨hw, hρra⟩)⟩
        · refine ⟨rb, (hmerge z rb).mpr (Or.inl ⟨(reaches_iff_sameClass hra' z).mpr hza, rfl⟩),
            (hmerge w rb).mpr (Or.inr ⟨(reaches_iff_sameClass hrb w).mpr hwb, Ne.symm hrarb⟩)⟩
        · refine ⟨rb, (hmerge z rb).mpr (Or.inr ⟨(reaches_iff_sameClass hrb z).mpr hzb, Ne.symm hrarb⟩),
            (hmerge w rb).mpr (Or.inl ⟨(reaches_iff_sameClass hra' w).mpr hwa, rfl⟩)⟩

theorem reaches_self_of_ge {p : List Nat} {z : Nat} (hz : p.length ≤ z) :
    Reaches p z z := ⟨0, .root z (List.getD_eq_default _ _ hz)⟩

theorem sameClass_refl {p : List Nat} (hUF : UFok p) (z : Nat) : sameClass p z z := by
  by_cases hz : z < p.length
  · obtain ⟨r, hr⟩ := hUF.2 z hz
    exact ⟨r, hr, hr⟩
  · exact ⟨z, reaches_self_of_ge (not_lt.mp hz), reaches_self_of_ge (not_lt.mp hz)⟩

theorem sameClass_equivalence {p : List Nat} (hUF : UFok p) :
    Equivalence (sameClass p) := by
  refine ⟨sameClass_refl hUF, ?_, ?_⟩
  · rintro x y ⟨ρ, hx, hy⟩
    exact ⟨ρ, hy, hx⟩
  · rintro x y z ⟨ρ1, hx, hy⟩ ⟨ρ2, hy2, hz⟩
    rw [reaches_fn hy2 hy] at hz
    exact ⟨ρ1, hx, hz⟩

theorem eqvGen_le {R S : Nat → Nat → Prop} (hS : Equivalence S)
    (h : ∀ x y, R x y → S x y) :
    ∀ x y, Relation.EqvGen R x y → S x y :=
  fun _ _ hxy => hS.eqvGen_iff.mp (Relation.EqvGen.mono h hxy)

theorem eqvGen_chain3 {R : Nat → Nat → Prop} {x i j y : Nat}
    (h1 : R x i) (h2 : R i j) (h3 : R y j) : Relation.EqvGen R x y :=
  Relation.EqvGen.trans _ _ _
    (Relation.EqvGen.trans _ _ _ (Relation.EqvGen.rel x i h1) (Relation.EqvGen.rel i j h2))
    (Relation.EqvGen.symm y j (Relation.EqvGen.rel y j h3))

theorem eqvGen_chain3' {R : Nat → Nat → Prop} {x i j y : Nat}
    (h1 : R x j) (h2 : R i j) (h3 : R y i) : Relation.EqvGen R x y :=
  Relation.EqvGen.trans _ _ _
    (Relation.EqvGen.trans _ _ _ (Relation.EqvGen.rel x j h1)
      (Relation.EqvGen.symm i j (Relation.EqvGen.rel i j h2)))
    (Relation.EqvGen.symm y i (Relation.EqvGen.rel y i h3))

theorem comparePairs_spec (dist : String → String → Except String Nat)
    (threshold : Nat) (hget : Nat → String) :
    ∀ (pairs : List (Nat × Nat)) (p P : List Nat),
    comparePairs dist threshold hget false pairs p = .ok P →
    UFok p →
    (∀ q ∈ pairs, q.1 < p.length ∧ q.2 < p.length) →
    P.length = p.length ∧ UFok P ∧
    ∀ z w, sameClass P z w ↔
      Relation.EqvGen
        (fun x y => sameClass p x y ∨ pairEdge dist threshold hget pairs x y) z w := by
  intro pairs
  induction pairs with
  | nil =>
    intro p P hok hUF _
    have hP : P = p := by
      simpa [comparePairs] using hok.symm
    subst hP
    refine ⟨rfl, hUF, ?_⟩
    intro z w
    constructor
    · intro h
      exact Relation.EqvGen.rel z w (Or.inl h)
    · intro h
      refine eqvGen_le (sameClass_equivalence hUF) ?_ z w h
      rintro x y (hxy | ⟨hmem, -⟩)
      · exact hxy
      · exact absurd hmem (List.not_mem_nil _)
  | cons q rest ih =>
    obtain ⟨i, j⟩ := q
    intro p P hok hUF hbounds
    have hi : i < p.length := (hbounds (i, j) (List.mem_cons_self _ _)).1
    have hj : j < p.length := (hbounds (i, j) (List.mem_cons_self _ _)).2
    simp only [comparePairs, if_neg (Bool.false_ne_true)] at hok
    cases hdist : dist (hget i) (hget j) with
    | error msg => rw [hdist] at hok; exact absurd hok (by simp)
    | ok d =>
      rw [hdist] at hok
      simp only at hok
      by_cases hd : d ≤ threshold
      · rw [if_pos hd] at hok
        obtain ⟨hulen, huUF, hucls⟩ := ufUnion_spec hUF hi hj
        obtain ⟨hlen2, hUF2, hcls2⟩ := ih (ufUnion p i j) P hok huUF
          (fun q hq => by rw [hulen]; exact hbounds q (List.mem_cons_of_mem _ hq))
        refine ⟨by rw [hlen2, hulen], hUF2, ?_⟩
        intro z w
        rw [hcls2 z w]
        constructor
        · refine eqvGen_le (Relation.EqvGen.is_equivalence _) ?_ z w
          rintro x y (hxy | ⟨hmem, hdxy⟩)
          · rcases (hucls x y).mp hxy with h | ⟨hxi, hyj⟩ | ⟨hxj, hyi⟩
            · exact Relation.EqvGen.rel x y (Or.inl h)
            · exact eqvGen_chain3 (Or.inl hxi)
                (Or.inr ⟨List.mem_cons_self _ _, d, hdist, hd⟩) (Or.inl hyj)
            · exact eqvGen_chain3' (Or.inl hxj)
                (Or.inr ⟨List.mem_cons_self _ _, d, hdist, hd⟩) (Or.inl hyi)
          · exact Relation.EqvGen.rel x y
              (Or.inr ⟨List.mem_cons_of_mem _ hmem, hdxy⟩)
        · refine eqvGen_le (Relation.EqvGen.is_equivalence _) ?_ z w
          rintro x y (hxy | ⟨hmem, hdxy⟩)
          · exact Relation.EqvGen.rel x y (Or.inl ((hucls x y).mpr (Or.inl hxy)))
          · rcases List.mem_cons.mp hmem with heq | hmem2
            · have hx : x = i := congrArg Prod.fst heq
              have hy : y = j := congrArg Prod.snd heq
              subst hx
              subst hy
              refine Relation.EqvGen.rel x y (Or.inl ((hucls x y).mpr ?_))
              exact Or.inr (Or.inl ⟨sameClass_refl hUF x, sameClass_refl hUF y⟩)
            · exact Relation.EqvGen.rel x y (Or.inr ⟨hmem2, hdxy⟩)
      · rw [if_neg hd] at hok
        obtain ⟨hlen2, hUF2, hcls2⟩ := ih p P hok hUF
          (fun q hq => hbounds q (List.mem_cons_of_mem _ hq))
        refine ⟨hlen2, hUF2, ?_⟩
        intro z w
        rw [hcls2 z w]
        constructor
        · refine eqvGen_le (Relation.EqvGen.is_equivalence _) ?_ z w
          rintro x y (hxy | ⟨hmem, hdxy⟩)
          · exact Relation.EqvGen.rel x y (Or.inl hxy)
          · exact Relation.EqvGen.rel x y (Or.inr ⟨List.mem_cons_of_mem _ hmem, hdxy⟩)
        · refine eqvGen_le (Relation.EqvGen.is_equivalence _) ?_ z w
          rintro x y (hxy | ⟨hmem, hdxy⟩)
          · exact Relation.EqvGen.rel x y (Or.inl hxy)
          · rcases List.mem_cons.mp hmem with heq | hmem2
            · exfalso
              obtain ⟨d2, hd2, hd2t⟩ := hdxy
              have hx : x = i := congrArg Prod.fst heq
              have hy : y = j := congrArg Prod.snd heq
              rw [hx, hy, hdist] at hd2
              injection hd2 with hdd
              omega
            · exact Relation.EqvGen.rel x y (Or.inr ⟨hmem2, hdxy⟩)

theorem mapPush_key_mem {κ β : Type} [DecidableEq κ] :
    ∀ (m : List (κ × List β)) (k : κ) (v : β) (q : κ × List β),
    q ∈ mapPush m k v → q.1 ∈ m.map Prod.fst ∨ q.1 = k := by
  intro m k v
  induction m with
  | nil =>
    intro q hq
    simp [mapPush] at hq
    simp [hq]
  | cons q4 t ih =>
    obtain ⟨k4, vs4⟩ := q4
    intro q hq
    by_cases hk4 : k4 = k
    · simp only [mapPush, if_pos hk4] at hq
      rcases List.mem_cons.mp hq with h | h
      · simp [h]
      · exact Or.inl (List.mem_cons_of_mem _ (List.mem_map_of_mem Prod.fst h))
    · simp only [mapPush, if_neg hk4] at hq
      rcases List.mem_cons.mp hq with h | h
      · simp [h]
      · rcases ih q h with h2 | h2
        · exact Or.inl (List.mem_cons_of_mem _ h2)
        · exact Or.inr h2

theorem mapPush_keys_nodup {κ β : Type} [DecidableEq κ] :
    ∀ (m : List (κ × List β)) (k : κ) (v : β),
    (m.map Prod.fst).Nodup → ((mapPush m k v).map Prod.fst).Nodup := by
  intro m k v
  induction m with
  | nil => simp [mapPush]
  | cons q t ih =>
    obtain ⟨k', vs⟩ := q
    intro hnd
    simp only [List.map_cons, List.nodup_cons] at hnd
    by_cases hk : k' = k
    · simp only [mapPush, if_pos hk, List.map_cons, List.nodup_cons]
      exact hnd
    · simp only [mapPush, if_neg hk, List.map_cons, List.nodup_cons]
      refine ⟨?_, ih hnd.2⟩
      intro hmem
      obtain ⟨q2, hq2, hq2k⟩ := List.mem_map.mp hmem
      rcases mapPush_key_mem t k v q2 hq2 with h2 | h2
      · rw [hq2k] at h2
        exact hnd.1 h2
      · rw [hq2k] at h2
        exact hk h2

theorem mapPush_mem_self {κ β : Type} [DecidableEq κ] :
    ∀ (m : List (κ × List β)) (k : κ) (v : β),
    ∃ b, (k, b) ∈ mapPush m k v ∧ v ∈ b := by
  intro m k v
  induction m with
  | nil => exact ⟨[v], by simp [mapPush]⟩
  | cons q t ih =>
    obtain ⟨k', vs⟩ := q
    by_cases hk : k' = k
    · subst hk
      exact ⟨vs ++ [v], by simp [mapPush]⟩
    · obtain ⟨b, hb, hv⟩ := ih
      exact ⟨b, by simp only [mapPush, if_neg hk]; exact List.mem_cons_of_mem _ hb, hv⟩

theorem mapPush_persist {κ β : Type} [DecidableEq κ] :
    ∀ (m : List (κ × List β)) (k : κ) (v : β) (k' : κ) (b : List β),
    (k', b) ∈ m → ∃ b', (k', b') ∈ mapPush m k v ∧ ∀ x ∈ b, x ∈ b' := by
  intro m k v
  induction m with
  | nil => intro k' b hb; exact absurd hb (List.not_mem_nil _)
  | cons q t ih =>
    obtain ⟨k2, vs⟩ := q
    intro k' b hb
    by_cases hk : k2 = k
    · rcases List.mem_cons.mp hb with h | h
      · refine ⟨vs ++ [v], ?_, ?_⟩
        · simp only [mapPush, if_pos hk]
          have : k' = k2 := congrArg Prod.fst h
          rw [this]
          exact List.mem_cons_self _ _
        · intro x hx
          have hbvs : b = vs := congrArg Prod.snd h
          rw [hbvs] at hx
          exact List.mem_append_left _ hx
      · exact ⟨b, by simp only [mapPush, if_pos hk]; exact List.mem_cons_of_mem _ h,
          fun x hx => hx⟩
    · rcases List.mem_cons.mp hb with h | h
      · refine ⟨b, ?_, fun x hx => hx⟩
        simp only [mapPush, if_neg hk]
        exact List.mem_cons.mpr (Or.inl h)
      · obtain ⟨b', hb', hsub⟩ := ih k' b h
        exact ⟨b', by simp only [mapPush, if_neg hk]; exact List.mem_cons_of_mem _ hb', hsub⟩

theorem mapPush_inv {κ β : Type} [DecidableEq κ] (Q : κ → β → Prop) :
    ∀ (m : List (κ × List β)) (k : κ) (v : β),
    (∀ q ∈ m, ∀ x ∈ q.2, Q q.1 x) → Q k v →
    ∀ q ∈ mapPush m k v, ∀ x ∈ q.2, Q q.1 x := by
  intro m k v
  induction m with
  | nil =>
    intro _ hQ q hq x hx
    simp only [mapPush, List.mem_singleton] at hq
    subst hq
    rcases List.mem_singleton.mp hx with rfl
    exact hQ
  | cons q0 t ih =>
    obtain ⟨k2, vs⟩ := q0
    intro hinv hQ q hq x hx
    by_cases hk : k2 = k
    · simp only [mapPush, if_pos hk] at hq
      rcases List.mem_cons.mp hq with h | h
      · subst h
        rcases List.mem_append.mp hx with h2 | h2
        · exact hinv (k2, vs) (List.mem_cons_self _ _) x h2
        · rcases List.mem_singleton.mp h2 with rfl
          rw [hk]
          exact hQ
      · exact hinv q (List.mem_cons_of_mem _ h) x hx
    · simp only [mapPush, if_neg hk] at hq
      rcases List.mem_cons.mp hq with h | h
      · subst h
        exact hinv (k2, vs) (List.mem_cons_self _ _) x hx
      · exact ih (fun q2 hq2 => hinv q2 (List.mem_cons_of_mem _ hq2)) hQ q h x hx

theorem keys_nodup_mem_unique {α β : Type} {m : List (α × β)}
    (h : (m.map Prod.fst).Nodup) :
    ∀ {k : α} {b1 b2 : β}, (k, b1) ∈ m → (k, b2) ∈ m → b1 = b2 := by
  induction m with
  | nil => intro k b1 b2 h1; exact absurd h1 (List.not_mem_nil _)
  | cons q t ih =>
    obtain ⟨k0, b0⟩ := q
    simp only [List.map_cons, List.nodup_cons] at h
    intro k b1 b2 h1 h2
    rcases List.mem_cons.mp h1 with ha | ha <;> rcases List.mem_cons.mp h2 with hb | hb
    · have e1 : b1 = b0 := congrArg Prod.snd ha
      have e2 : b2 = b0 := congrArg Prod.snd hb
      rw [e1, e2]
    · exfalso
      have ek : k = k0 := congrArg Prod.fst ha
      apply h.1
      rw [← ek]
      exact List.mem_map_of_mem Prod.fst hb
    · exfalso
      have ek : k = k0 := congrArg Prod.fst hb
      apply h.1
      rw [← ek]
      exact List.mem_map_of_mem Prod.fst ha
    · exact ih h.2 ha hb

theorem collectLoop_spec (P : List Nat) :
    ∀ (is : List Nat) (p : List Nat) (m : List (Nat × List Nat)),
    p.length = P.length → UFok p → (∀ z ρ, Reaches p z ρ ↔ Reaches P z ρ) →
    (∀ q ∈ m, ∀ i ∈ q.2, Reaches P i q.1 ∧ i < P.length) →
    (∀ i ∈ is, i < P.length) →
    (∀ q ∈ (collectLoop is p m).2, ∀ i ∈ q.2, Reaches P i q.1 ∧ i < P.length) ∧
    ((m.map Prod.fst).Nodup → ((collectLoop is p m).2.map Prod.fst).Nodup) ∧
    (∀ k b, (k, b) ∈ m → ∀ i ∈ b, ∃ b', (k, b') ∈ (collectLoop is p m).2 ∧ i ∈ b') ∧
    (∀ i ∈ is, ∃ r b, (r, b) ∈ (collectLoop is p m).2 ∧ i ∈ b ∧ Reaches P i r) := by
  intro is
  induction is with
  | nil =>
    intro p m _ _ _ hinv _
    refine ⟨hinv, fun h => h, ?_, ?_⟩
    · intro k b hb i hi
      exact ⟨b, hb, hi⟩
    · intro i hi
      exact absurd hi (List.not_mem_nil _)
  | cons i rest ih =>
    intro p m hlen hUF hiff hinv hbnd
    have hi : i < P.length := hbnd i (List.mem_cons_self _ _)
    obtain ⟨r, hr⟩ := hUF.2 i (by rw [hlen]; exact hi)
    obtain ⟨ki, hchain⟩ := hr
    obtain ⟨h1, h2, h3, h4⟩ := ufFind_spec hchain
    have hiP : Reaches P i r := (hiff i r).mp ⟨ki, hchain⟩
    have hiff2 : ∀ z ρ, Reaches (ufFind p i).1 z ρ ↔ Reaches P z ρ :=
      fun z ρ => (h3 z ρ).trans (hiff z ρ)
    have hUF2 : UFok (ufFind p i).1 := by
      refine ⟨h4 hUF.1, ?_⟩
      intro x hx
      rw [h2, hlen] at hx
      obtain ⟨ρ, hρ⟩ := by
        rw [← hlen] at hx
        exact hUF.2 x hx
      exact ⟨ρ, (h3 x ρ).mpr hρ⟩
    have hstep : collectLoop (i :: rest) p m
        = collectLoop rest (ufFind p i).1 (mapPush m (ufFind p i).2 i) := by
      simp only [collectLoop]
    rw [hstep, h1]
    have hinv2 : ∀ q ∈ mapPush m r i, ∀ x ∈ q.2, Reaches P x q.1 ∧ x < P.length :=
      mapPush_inv (fun k x => Reaches P x k ∧ x < P.length) m r i hinv ⟨hiP, hi⟩
    obtain ⟨c1, c2, c3, c4⟩ := ih (ufFind p i).1 (mapPush m r i)
      (by rw [h2, hlen]) hUF2 hiff2 hinv2
      (fun x hx => hbnd x (List.mem_cons_of_mem _ hx))
    refine ⟨c1, fun hnd => c2 (mapPush_keys_nodup m r i hnd), ?_, ?_⟩
    · intro k b hb x hx
      obtain ⟨b1, hb1, hsub⟩ := mapPush_persist m r i k b hb
      exact c3 k b1 hb1 x (hsub x hx)
    · intro x hx
      rcases List.mem_cons.mp hx with rfl | hx2
      · obtain ⟨b0, hb0, hxb0⟩ := mapPush_mem_self m r x
        obtain ⟨b', hb', hxb'⟩ := c3 r b0 hb0 x hxb0
        exact ⟨r, b', hb', hxb', hiP⟩
      · exact c4 x hx2

theorem range_getD_self (n : Nat) : ∀ z, (List.range n).getD z z = z := by
  intro z
  by_cases hz : z < n
  · rw [List.getD_eq_getElem _ _ (by simpa using hz)]
    simp
  · rw [List.getD_eq_default _ _ (by simpa using not_lt.mp hz)]

theorem reaches_range_iff (n : Nat) : ∀ z ρ, Reaches (List.range n) z ρ ↔ ρ = z := by
  intro z ρ
  constructor
  · rintro ⟨k, hk⟩
    cases hk with
    | root _ _ => rfl
    | step _ _ _ hne _ => exact absurd (range_getD_self n z) hne
  · intro h
    rw [h]
    exact ⟨0, .root z (range_getD_self n z)⟩

theorem ufok_range (n : Nat) : UFok (List.range n) := by
  constructor
  · intro i hi
    rw [List.length_range] at hi ⊢
    rw [List.getD_eq_getElem _ _ (by simpa using hi)]
    simpa using hi
  · intro x _
    exact ⟨x, (reaches_range_iff n x x).mpr rfl⟩

theorem sameClass_range_iff (n : Nat) : ∀ z w, sameClass (List.range n) z w ↔ z = w := by
  intro z w
  constructor
  · rintro ⟨ρ, hz, hw⟩
    rw [(reaches_range_iff n z ρ).mp hz] at hw
    exact (reaches_range_iff n w z).mp hw
  · rintro rfl
    exact ⟨z, (reaches_range_iff n z z).mpr rfl, (reaches_range_iff n z z).mpr rfl⟩

theorem mem_range_drop {n k j : Nat} : j ∈ (List.range n).drop k ↔ k ≤ j ∧ j < n := by
  constructor
  · intro h
    have hjn : j < n := List.mem_range.mp (List.mem_of_mem_drop h)
    obtain ⟨idx, hidx, heq⟩ := List.getElem_of_mem h
    rw [List.getElem_drop, List.getElem_range] at heq
    omega
  · rintro ⟨hkj, hjn⟩
    have hlen : j - k < ((List.range n).drop k).length := by
      rw [List.length_drop, List.length_range]
      omega
    have heq : ((List.range n).drop k)[j - k] = j := by
      rw [List.getElem_drop, List.getElem_range]
      omega
    rw [← heq]
    exact List.getElem_mem hlen

theorem allPairs_mem (n : Nat) (x y : Nat) :
    (x, y) ∈ allPairs n ↔ x < y ∧ y < n := by
  rw [allPairs, List.mem_flatMap]
  constructor
  · rintro ⟨i, hi, hmem⟩
    obtain ⟨j, hj, hpair⟩ := List.mem_map.mp hmem
    have hx : i = x := congrArg Prod.fst hpair
    have hy : j = y := congrArg Prod.snd hpair
    subst hx
    subst hy
    have := mem_range_drop.mp hj
    omega
  · rintro ⟨hxy, hyn⟩
    refine ⟨x, List.mem_range.mpr (by omega), List.mem_map.mpr ⟨y, ?_, rfl⟩⟩
    exact mem_range_drop.mpr ⟨by omega, hyn⟩

theorem eqvGen_or_eq {E Z : Nat → Nat → Prop} (h : ∀ x y, Z x y → x = y) :
    ∀ z w, Relation.EqvGen (fun x y => Z x y ∨ E x y) z w ↔ Relation.EqvGen E z w := by
  intro z w
  constructor
  · refine eqvGen_le (Relation.EqvGen.is_equivalence E) ?_ z w
    rintro x y (hxy | hxy)
    · rw [h x y hxy]
      exact Relation.EqvGen.refl y
    · exact Relation.EqvGen.rel x y hxy
  · exact Relation.EqvGen.mono (fun x y hxy => Or.inr hxy)

theorem two_mem_one_lt_length {b : List Nat} {i j : Nat}
    (hi : i ∈ b) (hj : j ∈ b) (hij : i ≠ j) : 1 < b.length := by
  match b with
  | [] => exact absurd hi (List.not_mem_nil _)
  | [x] =>
    rw [List.mem_singleton.mp hi, List.mem_singleton.mp hj] at hij
    exact absurd rfl hij
  | x :: y :: t => simp

theorem eqvGen_congr {R S : Nat → Nat → Prop} (h : ∀ x y, R x y ↔ S x y) :
    ∀ z w, Relation.EqvGen R z w ↔ Relation.EqvGen S z w :=
  fun _ _ => ⟨Relation.EqvGen.mono (fun x y => (h x y).mp),
    Relation.EqvGen.mono (fun x y => (h x y).mpr)⟩

theorem similarClusters_groups (dist : String → String → Except String Nat)
    (threshold : Nat) (hs : List HashedFile) (gs : List DuplicateGroup)
    (hok : similarClusters dist threshold false hs = .ok gs)
    (hinj : ∀ i j, i < hs.length → j < hs.length →
        hs.getD i default = hs.getD j default → i = j) :
    ∀ i j, i < hs.length → j < hs.length → i ≠ j →
      ((∃ g ∈ gs, hs.getD i default ∈ g.files ∧ hs.getD j default ∈ g.files) ↔
        Relation.EqvGen (simEdge dist threshold hs) i j) := by
  simp only [similarClusters] at hok
  cases hcp : comparePairs dist threshold (fun i => (hs.getD i default).hash) false
      (allPairs hs.length) (List.range hs.length) with
  | error e =>
    rw [hcp] at hok
    exact absurd hok (by simp)
  | ok P =>
    rw [hcp] at hok
    simp only at hok
    injection hok with hok
    obtain ⟨hPlen, hPUF, hPcls⟩ := comparePairs_spec dist threshold
      (fun i => (hs.getD i default).hash) (allPairs hs.length) (List.range hs.length) P
      hcp (ufok_range hs.length)
      (by
        intro q hq
        obtain ⟨a, b⟩ := q
        have := (allPairs_mem hs.length a b).mp hq
        rw [List.length_range]
        exact ⟨by omega, this.2⟩)
    have hPlen2 : P.length = hs.length := by rw [hPlen, List.length_range]
    have hcls2 : ∀ z w, sameClass P z w ↔
        Relation.EqvGen (simEdge dist threshold hs) z w := by
      intro z w
      rw [hPcls z w]
      rw [eqvGen_or_eq (fun x y => (sameClass_range_iff hs.length x y).mp) z w]
      refine eqvGen_congr ?_ z w
      intro x y
      rw [pairEdge, allPairs_mem, simEdge]
      constructor
      · rintro ⟨⟨h1, h2⟩, h3⟩
        exact ⟨h1, h2, h3⟩
      · rintro ⟨h1, h2, h3⟩
        exact ⟨⟨h1, h2⟩, h3⟩
    obtain ⟨c1, c2, c3, c4⟩ := collectLoop_spec P (List.range hs.length) P []
      rfl hPUF (fun z ρ => Iff.rfl)
      (by intro q hq; exact absurd hq (List.not_mem_nil _))
      (by intro x hx; rw [hPlen2]; exact List.mem_range.mp hx)
    have hnd : (((collectLoop (List.range hs.length) P []).2).map Prod.fst).Nodup :=
      c2 (by simp)
    intro i j hi hj hij
    subst hok
    constructor
    · rintro ⟨g, hg, hgi, hgj⟩
      obtain ⟨q, hqf, hgq⟩ := List.mem_map.mp hg
      have hq2 : q ∈ (collectLoop (List.range hs.length) P []).2 :=
        List.mem_of_mem_filter hqf
      have hfiles : g.files = q.2.map fun i => hs.getD i default := by
        rw [← hgq]
      rw [hfiles] at hgi hgj
      obtain ⟨i', hi'q, hi'eq⟩ := List.mem_map.mp hgi
      obtain ⟨j', hj'q, hj'eq⟩ := List.mem_map.mp hgj
      obtain ⟨hri', hlti'⟩ := c1 q hq2 i' hi'q
      obtain ⟨hrj', hltj'⟩ := c1 q hq2 j' hj'q
      rw [hPlen2] at hlti' hltj'
      have hii : i' = i := hinj i' i hlti' hi hi'eq
      have hjj : j' = j := hinj j' j hltj' hj hj'eq
      rw [hii] at hri'
      rw [hjj] at hrj'
      exact (hcls2 i j).mp ⟨q.1, hri', hrj'⟩
    · intro hEq
      obtain ⟨ρ, hiρ, hjρ⟩ := (hcls2 i j).mpr hEq
      obtain ⟨r1, b1, hb1, hib1, hir1⟩ := c4 i (List.mem_range.mpr hi)
      obtain ⟨r2, b2, hb2, hjb2, hjr2⟩ := c4 j (List.mem_range.mpr hj)
      have hr1 : r1 = ρ := reaches_fn hir1 hiρ
      have hr2 : r2 = ρ := reaches_fn hjr2 hjρ
      rw [hr1] at hb1
      rw [hr2] at hb2
      have hbb : b1 = b2 := keys_nodup_mem_unique hnd hb1 hb2
      rw [← hbb] at hjb2
      have hlen1 : 1 < b1.length := two_mem_one_lt_length hib1 hjb2 hij
      have hqf : (ρ, b1) ∈ (collectLoop (List.range hs.length) P []).2.filter
          fun q => decide (1 < q.2.length) :=
        List.mem_filter.mpr ⟨hb1, by simpa using hlen1⟩
      refine ⟨_, List.mem_map_of_mem _ hqf, ?_, ?_⟩
      · exact List.mem_map_of_mem _ hib1
      · exact List.mem_map_of_mem _ hjb2

theorem three_chain (dist : String → String → Except String Nat)
    (e1 e2 e3 : FileSystem.FileEntry) (f1 f2 f3 : FileSystem.JsFile) (hA hB hC : String)
    (h1 : dist hA hB = .ok 3) (h2 : dist hA hC = .ok 20) (h3 : dist hB hC = .ok 3) :
    similarClusters dist 10 false
        [⟨e1, hA, f1⟩, ⟨e2, hB, f2⟩, ⟨e3, hC, f3⟩] =
      .ok [⟨hA, [⟨e1, hA, f1⟩, ⟨e2, hB, f2⟩, ⟨e3, hC, f3⟩]⟩] := by
  simp only [similarClusters]
  have hcp : comparePairs dist 10
      (fun i => ((([⟨e1, hA, f1⟩, ⟨e2, hB, f2⟩, ⟨e3, hC, f3⟩] : List HashedFile)).getD
        i default).hash) false
      (allPairs 3) (List.range 3) = .ok [1, 2, 2] := by
    simp [allPairs, comparePairs, ufUnion, ufFind, findAux, h1, h2, h3]
    rfl
  rw [show ([⟨e1, hA, f1⟩, ⟨e2, hB, f2⟩, ⟨e3, hC, f3⟩] : List HashedFile).length = 3 from rfl]
  rw [hcp]
  simp [collectLoop, ufFind, findAux, mapPush]

theorem findSimilar_phaseA_link (env : Env) (files : List FileSystem.FileEntry)
    (threshold : Nat) (aborted : Bool) (hs : List HashedFile)
    (log : List ScanProgress)
    (hphase :
      (if decide (0 < files.length) && files.all (fun f => truthyStr f.md5) then
          simMetaLoop env aborted
            (files.foldl (fun m e => mapPush m (e.md5.getD "") e) []).length
            (files.foldl (fun m e => mapPush m (e.md5.getD "") e) []) 0 1
            (ProgressTracker.init (env.clock 0) true)
        else
          simFallbackLoop env aborted files.length files 0 1
            (ProgressTracker.init (env.clock 0)
              (match files with | [] => false | e :: _ => e.file.isNone)))
        = (.ok hs, log)) :
    (findSimilarDuplicates env files threshold aborted).1
      = similarClusters ImageHash.hammingDistance threshold aborted hs := by
  simp only [findSimilarDuplicates]
  rw [hphase]
  cases hsc : similarClusters ImageHash.hammingDistance threshold aborted hs <;> simp [hsc]

end DuplicateFinder

/-- **C1.** Similarity grouping is transitively closed. (1) Whenever phase B
of the similarity scan (`similarClusters`, the union-find clustering, stated
for an arbitrary distance oracle) succeeds on a duplicate-free hashed-file
list, two distinct positions land in a common returned group exactly when
they are related by the equivalence closure of the one-step similarity edge
`distance ≤ threshold`. (2) `findSimilarDuplicates` computes its groups as
`similarClusters` over `hammingDistance` applied to the phase-A hashes.
(3) In particular, for three hashed entries A, B, C with d(A,B)=3, d(B,C)=3,
d(A,C)=20 and threshold 10, all three land in one returned group even though
d(A,C) exceeds the threshold. -/
theorem similarity_transitive_closure_grouping :
    (∀ (dist : String → String → Except String Nat) (threshold : Nat)
        (hs : List DuplicateFinder.HashedFile)
        (gs : List DuplicateFinder.DuplicateGroup),
      DuplicateFinder.similarClusters dist threshold false hs = .ok gs →
      (∀ i j, i < hs.length → j < hs.length →
          hs.getD i default = hs.getD j default → i = j) →
      ∀ i j, i < hs.length → j < hs.length → i ≠ j →
        ((∃ g ∈ gs, hs.getD i default ∈ g.files ∧ hs.getD j default ∈ g.files) ↔
          Relation.EqvGen (DuplicateFinder.simEdge dist threshold hs) i j))
    ∧ (∀ (env : DuplicateFinder.Env) (files : List FileSystem.FileEntry)
        (threshold : Nat) (aborted : Bool)
        (hs : List DuplicateFinder.HashedFile)
        (log : List DuplicateFinder.ScanProgress),
      (if decide (0 < files.length)
          && files.all (fun f => DuplicateFinder.truthyStr f.md5) then
          DuplicateFinder.simMetaLoop env aborted
            (files.foldl
              (fun m e => DuplicateFinder.mapPush m (e.md5.getD "") e) []).length
            (files.foldl
              (fun m e => DuplicateFinder.mapPush m (e.md5.getD "") e) []) 0 1
            (DuplicateFinder.ProgressTracker.init (env.clock 0) true)
        else
          DuplicateFinder.simFallbackLoop env aborted files.length files 0 1
            (DuplicateFinder.ProgressTracker.init (env.clock 0)
              (match files with | [] => false | e :: _ => e.file.isNone)))
        = (.ok hs, log) →
      (DuplicateFinder.findSimilarDuplicates env files threshold aborted).1
        = DuplicateFinder.similarClusters ImageHash.hammingDistance threshold
            aborted hs)
    ∧ (∀ (dist : String → String → Except String Nat)
        (e1 e2 e3 : FileSystem.FileEntry) (f1 f2 f3 : FileSystem.JsFile)
        (hA hB hC : String),
      dist hA hB = .ok 3 → dist hA hC = .ok 20 → dist hB hC = .ok 3 →
      DuplicateFinder.similarClusters dist 10 false
          [⟨e1, hA, f1⟩, ⟨e2, hB, f2⟩, ⟨e3, hC, f3⟩]
        = .ok [⟨hA, [⟨e1, hA, f1⟩, ⟨e2, hB, f2⟩, ⟨e3, hC, f3⟩]⟩]) :=
  ⟨DuplicateFinder.similarClusters_groups,
   DuplicateFinder.findSimilar_phaseA_link,
   DuplicateFinder.three_chain⟩

theorem similarity_transitive_closure_grouping_witness :
    DuplicateFinder.similarClusters
        (fun x y => if x = "b" ∨ y = "b" then Except.ok 3 else Except.ok 20)
        10 false
        [⟨default, "a", default⟩, ⟨default, "b", default⟩,
         ⟨default, "c", default⟩]
      = .ok [⟨"a", [⟨default, "a", default⟩, ⟨default, "b", default⟩,
          ⟨default, "c", default⟩]⟩] :=
  similarity_transitive_closure_grouping.2.2
    (fun x y => if x = "b" ∨ y = "b" then Except.ok 3 else Except.ok 20)
    default default default default default default "a" "b" "c" rfl rfl rfl
